import Mathlib

/-!
Verification of the buffer / builder / datatype core of the Arrow Rust
implementation (src/rust/src/buffer.rs, builder.rs, datatypes.rs).

Modelling conventions:
* Raw memory regions are `List Nat` of byte values (each < 256 where it
  matters).  Uninitialized (freshly allocated or reallocated) bytes are
  modelled by the poison byte `0xAA = 170`: the source's allocator leaves
  them unspecified, so no theorem below may depend on their value being 0.
* The aligned allocator is modelled as infallible (its only failure mode is
  machine-level out-of-memory, which the shallow embedding does not model);
  alignment itself is a property of machine addresses and is not modelled.
* `usize`/`i64` counters are modelled as `Nat`; the builders only ever use
  non-negative values for them.  `i32` values stored in buffers are modelled
  by their 4-byte little-endian bit pattern (`v % 2^32`).
-/

/-! ## Bit utilities (util/bit_util.rs is not part of src/) -/

/-- Modelled from the spec: `bit_util::round_upto_multiple_of_64(n)` is the
smallest multiple of 64 that is ≥ `n` (src/ does not contain util/bit_util.rs). -/
def round64 (n : Nat) : Nat := 64 * ((n + 63) / 64)

/-- Modelled from the spec: `bit_util::ceil(n, d) = (n + d − 1) / d`
(src/ does not contain util/bit_util.rs). -/
def ceilDiv (n d : Nat) : Nat := (n + d - 1) / d

/-- Fresh (uninitialized) memory returned by the aligned allocator; the poison
byte 0xAA stands for the unspecified contents. -/
def allocUninit (n : Nat) : List Nat := List.replicate n 170

/-- Modelled from the spec: `bit_util::get_bit` — bit `i` lives in byte `i/8`
at position `i%8` (LSB-0 within each byte). -/
def getBitInBytes (bytes : List Nat) (i : Nat) : Bool :=
  (bytes.getD (i / 8) 0).testBit (i % 8)

/-- Modelled from the spec: `bit_util::set_bit_raw` — sets bit `i` (LSB-0
within byte `i/8`) of the byte region. -/
def setBitInBytes (bytes : List Nat) (i : Nat) : List Nat :=
  bytes.set (i / 8) ((bytes.getD (i / 8) 0) ||| (1 <<< (i % 8)))

/-- Number of set bits among the low 8 bits of a byte. -/
def popcountByte (b : Nat) : Nat := ((List.range 8).filter (fun i => b.testBit i)).length

/-- Modelled from the spec: `bit_util::count_set_bits` — popcount over a whole
byte slice (src/ does not contain util/bit_util.rs). -/
def count_set_bits (bytes : List Nat) : Nat := (bytes.map popcountByte).sum

/-! ## Little-endian encoding of fixed-width primitive values -/

/-- Little-endian byte encoding of the low `w` bytes of `v` (the native byte
representation written by `to_byte_slice` for a `w`-byte primitive). -/
def encodeLE : Nat → Nat → List Nat
  | 0, _ => []
  | w + 1, v => (v % 256) :: encodeLE w (v / 256)

/-- Little-endian byte decoding (the reinterpretation a primitive array's
`value(i)` accessor performs). -/
def decodeLE : List Nat → Nat
  | [] => 0
  | b :: bs => b + 256 * decodeLE bs

/-! ## Buffer (immutable) — src/rust/src/buffer.rs -/

/-- `Buffer`: a shared region (`BufferData`, whose bytes are `data`) plus an
offset into it.  `data` models the bytes behind `BufferData.ptr`, of length
`BufferData.len`. -/
structure Buffer where
  data : List Nat
  offset : Nat
  deriving Repr, DecidableEq

/-- `Buffer::len`: `self.data.len - self.offset`. -/
def Buffer.len (b : Buffer) : Nat := b.data.length - b.offset

/-- `Buffer::data()`: the byte slice from the offset to the end of the region. -/
def Buffer.dataBytes (b : Buffer) : List Nat := b.data.drop b.offset

/-- `Buffer::from` (copy from a byte slice): fresh region, offset 0. -/
def Buffer.fromBytes (bytes : List Nat) : Buffer := { data := bytes, offset := 0 }

/-- `Buffer::slice`: asserts `self.offset + offset <= self.len()` (the source's
guard, verbatim), then shares the region with the offset advanced.  `none`
models the `assert!` abort. -/
def Buffer.slice (b : Buffer) (offset : Nat) : Option Buffer :=
  if b.offset + offset ≤ b.len then
    some { data := b.data, offset := b.offset + offset }
  else
    none

/-- The derived `PartialEq` on `Buffer`: `BufferData::eq` (same region length
and same region bytes — a full-region `memcmp`) on the `data` field, and
equality of the `offset` field. -/
def Buffer.beq (b1 b2 : Buffer) : Bool :=
  decide (b1.data = b2.data) && decide (b1.offset = b2.offset)

/-! ## MutableBuffer — src/rust/src/buffer.rs -/

/-- `MutableBuffer`: an exclusively owned region of `capacity` bytes (`data`
models the full allocation) of which the first `len` are in use. -/
structure MutableBuffer where
  data : List Nat
  len : Nat
  capacity : Nat
  deriving Repr, DecidableEq

/-- Well-formedness maintained by all `MutableBuffer` operations: the model's
region list has exactly `capacity` bytes and `len` never exceeds it. -/
def MutableBuffer.wf (b : MutableBuffer) : Prop :=
  b.data.length = b.capacity ∧ b.len ≤ b.capacity

/-- `MutableBuffer::new`: allocates `round_upto_multiple_of_64(capacity)`
(uninitialized) bytes. -/
def MutableBuffer.new (capacity : Nat) : MutableBuffer :=
  let new_capacity := round64 capacity
  { data := allocUninit new_capacity, len := 0, capacity := new_capacity }

/-- `MutableBuffer::resize` (src/rust/src/buffer.rs:169): a no-op when
`new_capacity ≤ capacity`; otherwise reallocates to
`max(round_upto_multiple_of_64(new_capacity), capacity * 2)`, preserving the
previously allocated bytes (`reallocate` keeps the first `capacity` bytes and
leaves the rest uninitialized).  `len` is untouched. -/
def MutableBuffer.resize (self : MutableBuffer) (new_capacity : Nat) : MutableBuffer :=
  if new_capacity ≤ self.capacity then self
  else
    let nc := max (round64 new_capacity) (self.capacity * 2)
    { data := self.data ++ allocUninit (nc - self.capacity),
      len := self.len, capacity := nc }

/-- `Write::write for MutableBuffer` (src/rust/src/buffer.rs:243): fails (first
component `false`) when `buf.len() > capacity − len`, leaving the buffer
untouched; otherwise copies the bytes to positions `[len, len + n)` and
advances `len`. -/
def MutableBuffer.writeSt (self : MutableBuffer) (bytes : List Nat) :
    Bool × MutableBuffer :=
  if bytes.length > self.capacity - self.len then (false, self)
  else
    (true,
      { self with
        data := self.data.take self.len ++ bytes ++ self.data.drop (self.len + bytes.length),
        len := self.len + bytes.length })

/-- `MutableBuffer::freeze`: transfers the region (of which `len` bytes are
meaningful — `BufferData.len` is set to `self.len`) into an immutable Buffer
with offset 0. -/
def MutableBuffer.freeze (self : MutableBuffer) : Buffer :=
  { data := self.data.take self.len, offset := 0 }

/-- Modelled from the spec: `MutableBuffer::reserve(new_capacity)` of the
builder-facing `MutableBuffer` revision (absent from src/rust/src/buffer.rs,
which only has `resize`): "if `new_capacity ≤ capacity`, no-op; otherwise grow
to `max(round_up_64(new_capacity), capacity * 2)`" — the exact growth rule of
the `resize` that is in src/.  The caller (builder.rs) reads the resulting
capacity. -/
def MutableBuffer.reserve (self : MutableBuffer) (new_capacity : Nat) : MutableBuffer :=
  self.resize new_capacity

/-- Modelled from the spec: the builder-facing `MutableBuffer::resize(new_len)`
(absent from src/rust/src/buffer.rs): same growth rule as `reserve`, then
"adjusts `len` to the requested value", with the grow-only behaviour the spec
fixes ("`resize` on a MutableBuffer never shrinks `len`"). -/
def MutableBuffer.resizeLen (self : MutableBuffer) (new_len : Nat) : MutableBuffer :=
  if self.len < new_len then
    let b := self.reserve new_len
    { b with len := new_len }
  else self

/-- Modelled from the spec: `MutableBuffer::set_null_bits(start, count)` zeroes
`count` bytes starting at byte offset `start` (absent from
src/rust/src/buffer.rs). -/
def MutableBuffer.set_null_bits (self : MutableBuffer) (start count : Nat) : MutableBuffer :=
  { self with
    data := self.data.take start ++ List.replicate count 0 ++ self.data.drop (start + count) }

/-! ## DataType / Field and their JSON surface — src/rust/src/datatypes.rs

`serde_json::Value` is modelled by `JsonValue`; objects are association lists
and `Map::get` is `jlookup` (first binding wins).  Error messages keep the
static text of the source; the dynamically formatted part of
`"invalid type name: {}"` is elided (no claim inspects it). -/

inductive JsonValue where
  | null
  | bool (b : Bool)
  | num (n : Int)
  | str (s : String)
  | arr (items : List JsonValue)
  | obj (members : List (String × JsonValue))
  deriving Repr

/-- `ArrowError` as far as datatypes.rs uses it. -/
inductive ArrowError where
  | parseError (msg : String)
  deriving Repr, DecidableEq

/-- `DataType` (src/rust/src/datatypes.rs:46).  A struct field
`(name, data_type, nullable)` is inlined as a tuple so that the type is a
plain nested inductive; the `Field` structure below wraps the same data. -/
inductive DataType where
  | boolean
  | int8
  | int16
  | int32
  | int64
  | uint8
  | uint16
  | uint32
  | uint64
  | float16
  | float32
  | float64
  | utf8
  | list (item : DataType)
  | struct (fields : List (String × DataType × Bool))
  deriving Repr

/-- `Field` (src/rust/src/datatypes.rs:68); named `ArrowField` because Lean's
library already owns the name `Field`. -/
structure ArrowField where
  name : String
  data_type : DataType
  nullable : Bool
  deriving Repr

/-- `serde_json::Map::get` on the association-list model of a JSON object. -/
def jlookup (key : String) : List (String × JsonValue) → Option JsonValue
  | [] => none
  | (k, v) :: rest => if k = key then some v else jlookup key rest

mutual

/-- `DataType::to_json` (src/rust/src/datatypes.rs:224). -/
def DataType.to_json : DataType → JsonValue
  | .boolean => .obj [("name", .str "bool")]
  | .int8 => .obj [("name", .str "int"), ("bitWidth", .num 8), ("isSigned", .bool true)]
  | .int16 => .obj [("name", .str "int"), ("bitWidth", .num 16), ("isSigned", .bool true)]
  | .int32 => .obj [("name", .str "int"), ("bitWidth", .num 32), ("isSigned", .bool true)]
  | .int64 => .obj [("name", .str "int"), ("bitWidth", .num 64), ("isSigned", .bool true)]
  | .uint8 => .obj [("name", .str "int"), ("bitWidth", .num 8), ("isSigned", .bool false)]
  | .uint16 => .obj [("name", .str "int"), ("bitWidth", .num 16), ("isSigned", .bool false)]
  | .uint32 => .obj [("name", .str "int"), ("bitWidth", .num 32), ("isSigned", .bool false)]
  | .uint64 => .obj [("name", .str "int"), ("bitWidth", .num 64), ("isSigned", .bool false)]
  | .float16 => .obj [("name", .str "floatingpoint"), ("precision", .str "HALF")]
  | .float32 => .obj [("name", .str "floatingpoint"), ("precision", .str "SINGLE")]
  | .float64 => .obj [("name", .str "floatingpoint"), ("precision", .str "DOUBLE")]
  | .utf8 => .obj [("name", .str "utf8")]
  | .struct fields => .obj [("fields", .arr (fieldsToJson fields))]
  | .list item => .obj [("name", .str "list"), ("children", item.to_json)]

def fieldsToJson : List (String × DataType × Bool) → List JsonValue
  | [] => []
  | (n, t, nb) :: rest => fieldToJsonCore n t nb :: fieldsToJson rest

/-- `Field::to_json` (src/rust/src/datatypes.rs:318), on the unpacked field. -/
def fieldToJsonCore (n : String) (t : DataType) (nb : Bool) : JsonValue :=
  .obj [("name", .str n), ("nullable", .bool nb), ("type", t.to_json)]

end

/-- `Field::to_json` on the `ArrowField` structure. -/
def ArrowField.to_json (f : ArrowField) : JsonValue :=
  fieldToJsonCore f.name f.data_type f.nullable

mutual

/-- `DataType::from` (src/rust/src/datatypes.rs:156); `none` branches of the
source's guard chains appear as the catch-all match arms, in source order. -/
def DataType.fromJson : JsonValue → Except ArrowError DataType
  | .obj members =>
    match jlookup "name" members with
    | some (.str "bool") => .ok .boolean
    | some (.str "utf8") => .ok .utf8
    | some (.str "floatingpoint") =>
      match jlookup "precision" members with
      | some (.str "HALF") => .ok .float16
      | some (.str "SINGLE") => .ok .float32
      | some (.str "DOUBLE") => .ok .float64
      | _ => .error (.parseError "floatingpoint precision missing or invalid")
    | some (.str "int") =>
      match jlookup "isSigned" members with
      | some (.bool true) =>
        match jlookup "bitWidth" members with
        | some (.num 8) => .ok .int8
        | some (.num 16) => .ok .int16
        | some (.num 32) => .ok .int32
        | some (.num 64) => .ok .int32
        | _ => .error (.parseError "int bitWidth missing or invalid")
      | some (.bool false) =>
        match jlookup "bitWidth" members with
        | some (.num 8) => .ok .uint8
        | some (.num 16) => .ok .uint16
        | some (.num 32) => .ok .uint32
        | some (.num 64) => .ok .uint64
        | _ => .error (.parseError "int bitWidth missing or invalid")
      | _ => .error (.parseError "int signed missing or invalid")
    | some _ => .error (.parseError "invalid type name")
    | none => structFieldsFrom members
  | _ => .error (.parseError "invalid json value type")

/-- The `None => map.get("fields")` branch of `DataType::from`
(src/rust/src/datatypes.rs:206), with the lookup fused into the scan so the
recursion into the "fields" value is structural. -/
def structFieldsFrom : List (String × JsonValue) → Except ArrowError DataType
  | [] => .error (.parseError "empty type")
  | (k, v) :: rest =>
    if k = "fields" then structFieldsValue v
    else structFieldsFrom rest

/-- The `Some(&Value::Array(..))` match of the struct branch: anything other
than an array under "fields" is rejected as "empty type". -/
def structFieldsValue : JsonValue → Except ArrowError DataType
  | .arr fields_array =>
    match fieldsFrom fields_array with
    | .error e => .error e
    | .ok fs => .ok (.struct fs)
  | _ => .error (.parseError "empty type")

/-- `fields_array.iter().map(|f| Field::from(f)).collect::<Result<Vec<Field>>>`. -/
def fieldsFrom : List JsonValue → Except ArrowError (List (String × DataType × Bool))
  | [] => .ok []
  | v :: vs =>
    match fieldFromCore v with
    | .error e => .error e
    | .ok f =>
      match fieldsFrom vs with
      | .error e => .error e
      | .ok fs => .ok (f :: fs)

/-- `Field::from` (src/rust/src/datatypes.rs:278), returning the field as an
unpacked tuple. -/
def fieldFromCore : JsonValue → Except ArrowError (String × DataType × Bool)
  | .obj members =>
    match jlookup "name" members with
    | some (.str name) =>
      match jlookup "nullable" members with
      | some (.bool nb) =>
        match findTypeAndParse members with
        | .error e => .error e
        | .ok t => .ok (name, t, nb)
      | _ => .error (.parseError "Field missing 'nullable' attribute")
    | _ => .error (.parseError "Field missing 'name' attribute")
  | _ => .error (.parseError "Invalid json value type for field")

/-- The `map.get("type")` lookup of `Field::from`, fused into a scan so the
recursive call on the "type" value is structural. -/
def findTypeAndParse : List (String × JsonValue) → Except ArrowError DataType
  | [] => .error (.parseError "Field missing 'type' attribute")
  | (k, v) :: rest => if k = "type" then DataType.fromJson v else findTypeAndParse rest

end

/-- `Field::from` on the `ArrowField` structure. -/
def ArrowField.fromJson (v : JsonValue) : Except ArrowError ArrowField :=
  match fieldFromCore v with
  | .error e => .error e
  | .ok (n, t, nb) => .ok { name := n, data_type := t, nullable := nb }

/-- `true` unless the parse result is `Ok(DataType::List(_))`. -/
def resultNotList : Except ArrowError DataType → Bool
  | .ok (.list _) => false
  | _ => true

/-! ## ArrayData and the typed array accessors

array.rs / array_data.rs are not part of src/; the parts the builder claims
need are modelled from the spec (§3, §4.6 of the specification). -/

/-- Modelled from the spec: `ArrayData` is the bundle
`{data_type, length, null_count, buffers, null_bitmap, child_data}`. -/
inductive ArrayDataM where
  | mk (data_type : DataType) (len : Nat) (null_count : Nat) (buffers : List Buffer)
      (null_bitmap : Option Buffer) (child_data : List ArrayDataM)

def ArrayDataM.data_type : ArrayDataM → DataType
  | .mk dt _ _ _ _ _ => dt

def ArrayDataM.len : ArrayDataM → Nat
  | .mk _ l _ _ _ _ => l

def ArrayDataM.null_count : ArrayDataM → Nat
  | .mk _ _ nc _ _ _ => nc

def ArrayDataM.buffers : ArrayDataM → List Buffer
  | .mk _ _ _ bs _ _ => bs

def ArrayDataM.null_bitmap : ArrayDataM → Option Buffer
  | .mk _ _ _ _ nb _ => nb

def ArrayDataM.child_data : ArrayDataM → List ArrayDataM
  | .mk _ _ _ _ _ cd => cd

def emptyBufferM : Buffer := { data := [], offset := 0 }

def emptyArrayDataM : ArrayDataM := .mk .boolean 0 0 [] none []

/-- Modelled from the spec: `PrimitiveArray<T>::value(i)` reinterprets bytes
`[i*sizeof(T), (i+1)*sizeof(T))` of the values buffer as `T` native
(little-endian); here as the `Nat` bit pattern. -/
def primValue (w : Nat) (d : ArrayDataM) (i : Nat) : Nat :=
  decodeLE ((((d.buffers.getD 0 emptyBufferM).dataBytes).drop (i * w)).take w)

/-- Modelled from the spec:
`is_null(i) = null_bitmap.present && !get_bit(null_bitmap, i)`. -/
def arrayIsNull (d : ArrayDataM) (i : Nat) : Bool :=
  match d.null_bitmap with
  | some bm => ! getBitInBytes bm.dataBytes i
  | none => false

/-! ## BufferBuilder — src/rust/src/builder.rs

The per-type `impl_buffer_builder!` expansion is modelled once, parameterized
by the element byte width `w` (`mem::size_of::<T>()`); element values are
their `Nat` byte patterns. -/

structure BufferBuilderW (w : Nat) where
  buffer : MutableBuffer
  len : Nat

/-- `BufferBuilder::<T>::new` (builder.rs:47). -/
def BufferBuilderW.new (w : Nat) (capacity : Nat) : BufferBuilderW w :=
  { buffer := MutableBuffer.new (capacity * w), len := 0 }

/-- `BufferBuilder::<T>::reserve` (builder.rs:89). -/
def BufferBuilderW.reserve {w : Nat} (self : BufferBuilderW w) (n : Nat) : BufferBuilderW w :=
  { self with buffer := self.buffer.reserve (w * (self.len + n)) }

/-- `BufferBuilder::<T>::write_bytes` (builder.rs:104): `len` advances only
when the underlying write succeeds. -/
def BufferBuilderW.write_bytes {w : Nat} (self : BufferBuilderW w) (bytes : List Nat)
    (len_added : Nat) : BufferBuilderW w :=
  let r := self.buffer.writeSt bytes
  if r.1 then { buffer := r.2, len := self.len + len_added }
  else { buffer := r.2, len := self.len }

/-- `BufferBuilder::<T>::push` (builder.rs:76). -/
def BufferBuilderW.push {w : Nat} (self : BufferBuilderW w) (v : Nat) : BufferBuilderW w :=
  (self.reserve 1).write_bytes (encodeLE w v) 1

/-- `BufferBuilder::<T>::push_slice` (builder.rs:82): one write of the
concatenated byte representation. -/
def BufferBuilderW.push_slice {w : Nat} (self : BufferBuilderW w) (vs : List Nat) :
    BufferBuilderW w :=
  (self.reserve vs.length).write_bytes ((vs.map (encodeLE w)).flatten) vs.length

/-- `BufferBuilder::<T>::advance` (builder.rs:62). -/
def BufferBuilderW.advance {w : Nat} (self : BufferBuilderW w) (i : Nat) : BufferBuilderW w :=
  { buffer := self.buffer.resizeLen ((self.len + i) * w), len := self.len + i }

/-- `BufferBuilder::<T>::finish` (builder.rs:97). -/
def BufferBuilderW.finish {w : Nat} (self : BufferBuilderW w) : Buffer :=
  self.buffer.freeze

/-! ## BufferBuilder<bool> — src/rust/src/builder.rs:131 -/

structure BoolBufferBuilder where
  buffer : MutableBuffer
  len : Nat

/-- `BufferBuilder::<bool>::new` (builder.rs:133). -/
def BoolBufferBuilder.new (capacity : Nat) : BoolBufferBuilder :=
  let byte_capacity := ceilDiv capacity 8
  let actual_capacity := round64 byte_capacity
  let buffer := MutableBuffer.new actual_capacity
  let buffer := buffer.set_null_bits 0 actual_capacity
  { buffer := buffer, len := 0 }

/-- `BufferBuilder::<bool>::capacity` (builder.rs:159): bit positions. -/
def BoolBufferBuilder.capacity (self : BoolBufferBuilder) : Nat :=
  self.buffer.capacity * 8

/-- `BufferBuilder::<bool>::reserve` (builder.rs:188): on growth the newly
allocated bytes are zeroed via `set_null_bits`. -/
def BoolBufferBuilder.reserve (self : BoolBufferBuilder) (n : Nat) : BoolBufferBuilder :=
  let new_capacity := self.len + n
  if new_capacity > self.capacity then
    let new_byte_capacity := ceilDiv new_capacity 8
    let existing_capacity := self.buffer.capacity
    let buffer := self.buffer.reserve new_byte_capacity
    let new_cap := buffer.capacity
    { self with buffer := buffer.set_null_bits existing_capacity (new_cap - existing_capacity) }
  else self

/-- `BufferBuilder::<bool>::push` (builder.rs:165): sets bit `len` when the
value is true (the tail is pre-zeroed); the mutable buffer's byte `len` is
not touched. -/
def BoolBufferBuilder.push (self : BoolBufferBuilder) (v : Bool) : BoolBufferBuilder :=
  let self := self.reserve 1
  let buffer :=
    if v then { self.buffer with data := setBitInBytes self.buffer.data self.len }
    else self.buffer
  { buffer := buffer, len := self.len + 1 }

/-- `BufferBuilder::<bool>::push_slice` (builder.rs:179): a loop of pushes. -/
def BoolBufferBuilder.push_slice (self : BoolBufferBuilder) (vs : List Bool) : BoolBufferBuilder :=
  vs.foldl BoolBufferBuilder.push self

/-- `BufferBuilder::<bool>::finish` (builder.rs:201): corrects the byte length
to `ceil(len/8)` before freezing. -/
def BoolBufferBuilder.finish (self : BoolBufferBuilder) : Buffer :=
  let new_buffer_len := ceilDiv self.len 8
  (self.buffer.resizeLen new_buffer_len).freeze

/-! ## PrimitiveArrayBuilder — src/rust/src/builder.rs:227 -/

structure PrimitiveArrayBuilderM (w : Nat) where
  values_builder : BufferBuilderW w
  bitmap_builder : BoolBufferBuilder

/-- `PrimitiveArrayBuilder::new` (builder.rs:267). -/
def PrimitiveArrayBuilderM.new (w capacity : Nat) : PrimitiveArrayBuilderM w :=
  { values_builder := BufferBuilderW.new w capacity,
    bitmap_builder := BoolBufferBuilder.new capacity }

/-- `PrimitiveArrayBuilder::push` (builder.rs:280). -/
def PrimitiveArrayBuilderM.push {w : Nat} (self : PrimitiveArrayBuilderM w) (v : Nat) :
    PrimitiveArrayBuilderM w :=
  { values_builder := self.values_builder.push v,
    bitmap_builder := self.bitmap_builder.push true }

/-- `PrimitiveArrayBuilder::push_null` (builder.rs:287). -/
def PrimitiveArrayBuilderM.push_null {w : Nat} (self : PrimitiveArrayBuilderM w) :
    PrimitiveArrayBuilderM w :=
  { values_builder := self.values_builder.advance 1,
    bitmap_builder := self.bitmap_builder.push false }

/-- `PrimitiveArrayBuilder::push_option` (builder.rs:294). -/
def PrimitiveArrayBuilderM.push_option {w : Nat} (self : PrimitiveArrayBuilderM w)
    (v : Option Nat) : PrimitiveArrayBuilderM w :=
  match v with
  | none => self.push_null
  | some x => self.push x

/-- `PrimitiveArrayBuilder::push_slice` (builder.rs:303). -/
def PrimitiveArrayBuilderM.push_slice {w : Nat} (self : PrimitiveArrayBuilderM w)
    (vs : List Nat) : PrimitiveArrayBuilderM w :=
  { values_builder := self.values_builder.push_slice vs,
    bitmap_builder := self.bitmap_builder.push_slice (List.replicate vs.length true) }

/-- `PrimitiveArrayBuilder::finish` (builder.rs:252); `dt` is the `DataType`
tag the expanded macro hard-codes per element type. -/
def PrimitiveArrayBuilderM.finish {w : Nat} (self : PrimitiveArrayBuilderM w)
    (dt : DataType) : ArrayDataM :=
  let len := self.values_builder.len
  let null_bit_buffer := self.bitmap_builder.finish
  .mk dt len (len - count_set_bits null_bit_buffer.dataBytes)
    [self.values_builder.finish] (some null_bit_buffer) []

/-- One call against a `PrimitiveArrayBuilder`. -/
inductive PrimOp where
  | push (v : Nat)
  | pushNull
  | pushOption (v : Option Nat)
  | pushSlice (vs : List Nat)

def applyPrimOp {w : Nat} (self : PrimitiveArrayBuilderM w) : PrimOp → PrimitiveArrayBuilderM w
  | .push v => self.push v
  | .pushNull => self.push_null
  | .pushOption v => self.push_option v
  | .pushSlice vs => self.push_slice vs

def runPrim {w : Nat} (ops : List PrimOp) (st : PrimitiveArrayBuilderM w) :
    PrimitiveArrayBuilderM w :=
  ops.foldl applyPrimOp st

/-- The slots an operation contributes (a null slot is `none`). -/
def expandOp : PrimOp → List (Option Nat)
  | .push v => [some v]
  | .pushNull => [none]
  | .pushOption v => [v]
  | .pushSlice vs => vs.map some

def expandOps (ops : List PrimOp) : List (Option Nat) :=
  (ops.map expandOp).flatten

/-- The non-null values an operation carries. -/
def opValues (op : PrimOp) : List Nat :=
  (expandOp op).filterMap id

/-! ## ListArrayBuilder — src/rust/src/builder.rs:325

The child builder type is kept generic (the source is generic over
`T: ArrayBuilder`); `ArrayBuilderOps` packages the two pieces of the
`ArrayBuilder` trait the list builder uses. -/

structure ArrayBuilderOps (C : Type) where
  len : C → Nat
  finishData : C → ArrayDataM
  finish_len : ∀ c, (finishData c).len = len c

structure ListArrayBuilderM (C : Type) where
  offsets_builder : BufferBuilderW 4
  bitmap_builder : BoolBufferBuilder
  values_builder : C
  len : Nat

/-- `ListArrayBuilder::new` (builder.rs:337): the offsets builder is seeded
with a single `0`. -/
def ListArrayBuilderM.new {C : Type} (ops : ArrayBuilderOps C) (values_builder : C) :
    ListArrayBuilderM C :=
  { offsets_builder := (BufferBuilderW.new 4 (ops.len values_builder + 1)).push 0,
    bitmap_builder := BoolBufferBuilder.new (ops.len values_builder),
    values_builder := values_builder, len := 0 }

/-- `ListArrayBuilder::append` (builder.rs:400): pushes the current child
length (as an i32 bit pattern) into the offsets builder. -/
def ListArrayBuilderM.append {C : Type} (ops : ArrayBuilderOps C) (self : ListArrayBuilderM C)
    (is_valid : Bool) : ListArrayBuilderM C :=
  { self with
    offsets_builder := self.offsets_builder.push (ops.len self.values_builder),
    bitmap_builder := self.bitmap_builder.push is_valid,
    len := self.len + 1 }

/-- `ListArrayBuilder::finish` (builder.rs:366). -/
def ListArrayBuilderM.finish {C : Type} (ops : ArrayBuilderOps C) (self : ListArrayBuilderM C) :
    ArrayDataM :=
  let values_data := ops.finishData self.values_builder
  let null_bit_buffer := self.bitmap_builder.finish
  .mk (.list values_data.data_type) self.len
    (self.len - count_set_bits null_bit_buffer.dataBytes)
    [self.offsets_builder.finish] (some null_bit_buffer) [values_data]

/-- One interaction step with a `ListArrayBuilder`: either drive the child
builder through `values()` or close a slot with `append`. -/
inductive ListCmd (C : Type) where
  | child (f : C → C)
  | append (is_valid : Bool)

def applyListCmd {C : Type} (ops : ArrayBuilderOps C) (self : ListArrayBuilderM C) :
    ListCmd C → ListArrayBuilderM C
  | .child f => { self with values_builder := f self.values_builder }
  | .append v => self.append ops v

def runListCmds {C : Type} (ops : ArrayBuilderOps C) (cmds : List (ListCmd C))
    (st : ListArrayBuilderM C) : ListArrayBuilderM C :=
  cmds.foldl (applyListCmd ops) st

/-- A child step never shrinks the child builder's length (all `ArrayBuilder`
operations only add slots). -/
def ListCmdMono {C : Type} (ops : ArrayBuilderOps C) : ListCmd C → Prop
  | .child f => ∀ c, ops.len c ≤ ops.len (f c)
  | .append _ => True

def isAppend {C : Type} : ListCmd C → Bool
  | .append _ => true
  | .child _ => false

/-- The `i`-th 32-bit slot of an offsets buffer, decoded little-endian. -/
def offsetAt (buf : Buffer) (i : Nat) : Nat :=
  decodeLE ((buf.dataBytes.drop (4 * i)).take 4)

/-- The `ArrayBuilder` vtable of a `PrimitiveArrayBuilder`. -/
def primOps (w : Nat) (dt : DataType) : ArrayBuilderOps (PrimitiveArrayBuilderM w) :=
  { len := fun b => b.values_builder.len,
    finishData := fun b => b.finish dt,
    finish_len := fun _ => rfl }

/-- The `ArrayBuilder` vtable of a `ListArrayBuilder` (nested lists). -/
def listOps {C : Type} (ops : ArrayBuilderOps C) : ArrayBuilderOps (ListArrayBuilderM C) :=
  { len := fun b => b.len,
    finishData := fun b => b.finish ops,
    finish_len := fun _ => rfl }

/-- The `ListArrayBuilder` protocol (builder.rs:390: "you must call `append`
to delimit each distinct list value"): each round is some child-builder steps
closed by one `append(is_valid)`. -/
def renderRounds {C : Type} (rounds : List (List (C → C) × Bool)) : List (ListCmd C) :=
  (rounds.map (fun r => r.1.map ListCmd.child ++ [ListCmd.append r.2])).flatten

/-! ## Invariants carried through the builder proofs -/

/-- State invariant of `BufferBuilder<bool>` after the bits `pushed` have been
pushed: every bit position inside the allocation reads back the pushed value
(or false past the end), the mutable length is still 0, bytes stay bytes, and
the popcount tracks the pushed `true`s. -/
def BoolInv (pushed : List Bool) (b : BoolBufferBuilder) : Prop :=
  b.len = pushed.length ∧
  b.buffer.len = 0 ∧
  b.buffer.data.length = b.buffer.capacity ∧
  pushed.length ≤ 8 * b.buffer.capacity ∧
  (∀ x ∈ b.buffer.data, x < 256) ∧
  count_set_bits b.buffer.data = pushed.count true ∧
  (∀ i, i < 8 * b.buffer.capacity → getBitInBytes b.buffer.data i = pushed.getD i false)

/-- State invariant of a fixed-width `BufferBuilder` holding the given slots
(`none` slots were produced by `advance` and carry unspecified bytes). -/
def WInv (w : Nat) (slots : List (Option Nat)) (b : BufferBuilderW w) : Prop :=
  b.len = slots.length ∧
  b.buffer.len = w * slots.length ∧
  b.buffer.data.length = b.buffer.capacity ∧
  b.buffer.len ≤ b.buffer.capacity ∧
  (∀ i v, slots.getD i none = some v → i < slots.length →
    ((b.buffer.data.drop (w * i)).take w) = encodeLE w v)

/-- Joint invariant of a `PrimitiveArrayBuilder`. -/
def PrimInv (w : Nat) (slots : List (Option Nat)) (st : PrimitiveArrayBuilderM w) : Prop :=
  WInv w slots st.values_builder ∧ BoolInv (slots.map Option.isSome) st.bitmap_builder

/-- Invariant of a `ListArrayBuilder` whose `append` calls so far recorded the
child lengths `recorded`. -/
def ListInv {C : Type} (ops : ArrayBuilderOps C) (recorded : List Nat)
    (st : ListArrayBuilderM C) : Prop :=
  WInv 4 ((0 :: recorded).map some) st.offsets_builder ∧
  st.len = recorded.length ∧
  List.Chain' (· ≤ ·) (0 :: recorded) ∧
  (∀ r ∈ (0 :: recorded), r ≤ ops.len st.values_builder)

/-! ## Basic arithmetic facts about the helpers -/

theorem round64_ge (n : Nat) : n ≤ round64 n := by
  unfold round64
  have h1 := Nat.div_add_mod (n + 63) 64
  have h2 : (n + 63) % 64 < 64 := Nat.mod_lt _ (by norm_num)
  omega

theorem round64_le_of_le {n m : Nat} (h : n ≤ m) : round64 n ≤ round64 m := by
  unfold round64
  have := Nat.div_le_div_right (c := 64) (Nat.add_le_add_right h 63)
  omega

theorem allocUninit_length (n : Nat) : (allocUninit n).length = n := by
  simp [allocUninit]

theorem ceilDiv_le_iff {n c : Nat} : ceilDiv n 8 ≤ c ↔ n ≤ 8 * c := by
  unfold ceilDiv
  constructor
  · intro h
    have h1 := Nat.div_add_mod (n + 8 - 1) 8
    have h2 : (n + 8 - 1) % 8 < 8 := Nat.mod_lt _ (by norm_num)
    omega
  · intro h
    have : n + 8 - 1 ≤ 8 * c + 7 := by omega
    have := Nat.div_le_div_right (c := 8) this
    have h8 : (8 * c + 7) / 8 = c := by omega
    omega

theorem encodeLE_length (w v : Nat) : (encodeLE w v).length = w := by
  induction w generalizing v with
  | zero => simp [encodeLE]
  | succ w ih => simp [encodeLE, ih]

theorem decodeLE_encodeLE (w v : Nat) : decodeLE (encodeLE w v) = v % 2 ^ (8 * w) := by
  induction w generalizing v with
  | zero => simp [encodeLE, decodeLE, Nat.mod_one]
  | succ w ih =>
    have hpow : (2 : Nat) ^ (8 * (w + 1)) = 256 * 2 ^ (8 * w) := by
      rw [Nat.mul_succ, pow_add]
      ring
    rw [encodeLE, decodeLE, ih, hpow, Nat.mod_mul]

/-! ## List segment helpers -/

theorem seg_of_append (pre mid post : List Nat) :
    (((pre ++ mid ++ post).drop pre.length).take mid.length) = mid := by
  rw [List.append_assoc, List.drop_left, List.take_left]

theorem take_len_append (A B : List Nat) (n : Nat) (h : A.length = n) :
    (A ++ B).take n = A := by
  subst h
  exact List.take_left A B

theorem drop_len_append (A B : List Nat) (n : Nat) (h : A.length = n) :
    (A ++ B).drop n = B := by
  subst h
  exact List.drop_left A B

theorem drop_append_of_le {a : Nat} (l l' : List Nat) (h : a ≤ l.length) :
    (l ++ l').drop a = l.drop a ++ l' := by
  rw [List.drop_append_eq_append_drop]
  have : a - l.length = 0 := by omega
  simp [this, List.take_of_length_le, h]

theorem seg_append_right {a w : Nat} (l l' : List Nat) (h : a + w ≤ l.length) :
    (((l ++ l').drop a).take w) = ((l.drop a).take w) := by
  rw [drop_append_of_le l l' (by omega)]
  have hlen : w ≤ (l.drop a).length := by
    simp [List.length_drop]
    omega
  rw [List.take_append_eq_append_take]
  have h0 : w - (l.drop a).length = 0 := by omega
  rw [h0]
  simp

theorem seg_of_take {a w m : Nat} (l : List Nat) (h : a + w ≤ m) :
    (((l.take m).drop a).take w) = ((l.drop a).take w) := by
  rw [List.drop_take]
  rw [List.take_take]
  congr 1
  omega

theorem drop_add_append {n m : Nat} (A B : List Nat) (h : A.length = n) :
    (A ++ B).drop (n + m) = B.drop m := by
  rw [← List.drop_drop, drop_len_append A B n h]

/-! ## getD facts -/

theorem getD_of_length_le {α : Type} {l : List α} {i : Nat} (h : l.length ≤ i) (d : α) :
    l.getD i d = d := by
  rw [List.getD_eq_getElem?_getD, List.getElem?_eq_none h]
  rfl

theorem getD_append_left {α : Type} {l l' : List α} {i : Nat} (h : i < l.length) (d : α) :
    (l ++ l').getD i d = l.getD i d :=
  List.getD_append l l' d i h

theorem getD_set_self {α : Type} {l : List α} {i : Nat} {x d : α} (h : i < l.length) :
    (l.set i x).getD i d = x := by
  rw [List.getD_eq_getElem?_getD, List.getElem?_set]
  simp [h]

theorem getD_set_ne {α : Type} {l : List α} {i j : Nat} (x d : α) (h : i ≠ j) :
    (l.set i x).getD j d = l.getD j d := by
  rw [List.getD_eq_getElem?_getD, List.getElem?_set, if_neg h, ← List.getD_eq_getElem?_getD]

theorem getD_replicate {α : Type} {n i : Nat} {x d : α} (h : i < n) :
    (List.replicate n x).getD i d = x := by
  rw [List.getD_eq_getElem?_getD, List.getElem?_replicate, if_pos h]
  rfl

theorem getD_take {α : Type} {l : List α} {m i : Nat} (h : i < m) (d : α) :
    (l.take m).getD i d = l.getD i d := by
  rw [List.getD_eq_getElem?_getD, List.getElem?_take, if_pos h, ← List.getD_eq_getElem?_getD]

theorem getD_mem {α : Type} {l : List α} {i : Nat} (h : i < l.length) (d : α) :
    l.getD i d ∈ l := by
  rw [List.getD_eq_getElem?_getD, List.getElem?_eq_getElem h]
  exact List.getElem_mem h

theorem append_single_getD {α : Type} (l : List α) (x : α) (i : Nat) (d : α) :
    (l ++ [x]).getD i d = if i < l.length then l.getD i d else if i = l.length then x else d := by
  rcases Nat.lt_trichotomy i l.length with h | h | h
  · rw [getD_append_left h, if_pos h]
  · subst h
    rw [List.getD_append_right _ _ _ _ (le_refl _)]
    simp
  · rw [List.getD_append_right _ _ _ _ (by omega), if_neg (by omega), if_neg (by omega)]
    have : 1 ≤ i - l.length := by omega
    cases hd : i - l.length with
    | zero => omega
    | succ n => simp

theorem getD_map_isSome {slots : List (Option Nat)} {i : Nat} (h : i < slots.length) :
    (slots.map Option.isSome).getD i false = (slots.getD i none).isSome := by
  induction slots generalizing i with
  | nil => simp at h
  | cons a t ih =>
    cases i with
    | zero => simp
    | succ n => simpa using ih (by simpa using h)

theorem map_some_isSome (vs : List Nat) :
    (vs.map some).map Option.isSome = List.replicate vs.length true := by
  rw [List.map_map]
  have : (Option.isSome ∘ some) = Function.const Nat true := by
    funext x
    simp [Function.const]
  rw [this, List.map_const]

theorem getLast?_eq_getD (l : List Nat) (d : Nat) (h : l ≠ []) :
    l.getLast? = some (l.getD (l.length - 1) d) := by
  induction l with
  | nil => simp at h
  | cons a t ih =>
    cases ht : t with
    | nil => simp
    | cons b u =>
      rw [List.getLast?_cons_cons]
      rw [ht] at ih
      rw [ih (by simp)]
      have hlen : (b :: u).length - 1 + 1 = (a :: b :: u).length - 1 := by simp
      rw [← hlen, List.getD_cons_succ]

/-! ## Byte-level bit facts (bytes are < 256 everywhere they are read) -/

set_option maxRecDepth 100000 in
theorem byte_or_lt : ∀ b : Nat, b < 256 → ∀ j : Nat, j < 8 → (b ||| (1 <<< j)) < 256 := by
  decide

set_option maxRecDepth 100000 in
theorem byte_or_testBit : ∀ b : Nat, b < 256 → ∀ j : Nat, j < 8 → ∀ k : Nat, k < 8 →
    (b ||| (1 <<< j)).testBit k = (b.testBit k || decide (j = k)) := by
  decide

set_option maxRecDepth 100000 in
theorem byte_or_popcount : ∀ b : Nat, b < 256 → ∀ j : Nat, j < 8 → b.testBit j = false →
    popcountByte (b ||| (1 <<< j)) = popcountByte b + 1 := by
  decide

set_option maxRecDepth 100000 in
theorem byte_zero_of_no_bits : ∀ b : Nat, b < 256 → (∀ k : Nat, k < 8 → b.testBit k = false) →
    b = 0 := by
  decide

theorem popcountByte_zero : popcountByte 0 = 0 := by decide

theorem bit_index_div {j : Nat} (k : Nat) (hj : j < 8) : (8 * k + j) / 8 = k := by
  rw [Nat.add_comm, Nat.add_mul_div_left j k (by norm_num : (0 : Nat) < 8),
    Nat.div_eq_of_lt hj]
  omega

theorem bit_index_mod {j : Nat} (k : Nat) (hj : j < 8) : (8 * k + j) % 8 = j := by
  rw [Nat.add_comm, Nat.add_mul_mod_self_left, Nat.mod_eq_of_lt hj]

/-! ## count_set_bits facts -/

theorem count_set_bits_append (l l' : List Nat) :
    count_set_bits (l ++ l') = count_set_bits l + count_set_bits l' := by
  simp [count_set_bits, List.map_append, List.sum_append]

theorem count_set_bits_replicate_zero (n : Nat) : count_set_bits (List.replicate n 0) = 0 := by
  simp [count_set_bits, List.map_replicate, List.sum_replicate, popcountByte_zero]

theorem count_set_bits_set {bytes : List Nat} {k x : Nat} (h : k < bytes.length) :
    count_set_bits (bytes.set k x) + popcountByte (bytes.getD k 0)
      = count_set_bits bytes + popcountByte x := by
  induction bytes generalizing k with
  | nil => simp at h
  | cons b t ih =>
    cases k with
    | zero =>
      simp [count_set_bits]
      omega
    | succ n =>
      have := ih (k := n) (by simpa using h)
      simp only [List.set_cons_succ, count_set_bits, List.map_cons, List.sum_cons,
        List.getD_cons_succ] at *
      omega

/-! ## MutableBuffer helper facts -/

theorem resize_spec {b : MutableBuffer} (hwf : b.wf) (n : Nat) :
    (b.resize n).wf ∧ (b.resize n).len = b.len ∧
    n ≤ (b.resize n).capacity ∧ b.capacity ≤ (b.resize n).capacity ∧
    ∃ k, (b.resize n).data = b.data ++ List.replicate k 170 ∧
      (b.resize n).capacity = b.capacity + k := by
  rcases hwf with ⟨hl, hc⟩
  unfold MutableBuffer.resize
  split
  · exact ⟨⟨hl, hc⟩, rfl, by omega, by omega, 0, by simp, by omega⟩
  · rename_i hgt
    dsimp only
    have hmax1 := Nat.le_max_left (round64 n) (b.capacity * 2)
    have hmax2 := Nat.le_max_right (round64 n) (b.capacity * 2)
    have hr := round64_ge n
    refine ⟨⟨?_, ?_⟩, rfl, by omega, by omega,
      max (round64 n) (b.capacity * 2) - b.capacity, ?_, by omega⟩
    · simp [allocUninit]
      omega
    · simp only []
      omega
    · simp [allocUninit]

theorem round64_mul (m : Nat) : round64 (64 * m) = 64 * m := by
  unfold round64
  rw [Nat.add_comm, Nat.add_mul_div_left 63 m (by norm_num : (0 : Nat) < 64)]
  norm_num

theorem round64_idem (n : Nat) : round64 (round64 n) = round64 n := round64_mul _

theorem set_zero_suffix (data junk : List Nat) (l c : Nat) :
    (MutableBuffer.mk (data ++ junk) l c).set_null_bits data.length junk.length
      = MutableBuffer.mk (data ++ List.replicate junk.length 0) l c := by
  unfold MutableBuffer.set_null_bits
  simp only [MutableBuffer.mk.injEq, and_true]
  rw [take_len_append _ _ _ rfl, List.drop_eq_nil_of_le (by simp), List.append_nil]

/-! ## Claim C1 — Buffer::slice -/

/-- Claim C1 counterexample: the buffer obtained by slicing
`Buffer::from([2,4,6,8,10])` at 2 has `len() = 3`, yet `slice(2)` — with
`2 ≤ 3 = len()` — hits the assert and aborts, because the source's guard is
`self.offset + offset <= self.len()`. -/
theorem C1_slice_counterexample :
    (Buffer.fromBytes [2, 4, 6, 8, 10]).slice 2
        = some { data := [2, 4, 6, 8, 10], offset := 2 } ∧
    Buffer.len { data := [2, 4, 6, 8, 10], offset := 2 } = 3 ∧
    Buffer.slice { data := [2, 4, 6, 8, 10], offset := 2 } 2 = none := by
  decide

/-- Claim C1 (amended): `b.slice(k)` succeeds exactly when
`b.offset + k ≤ b.len()` (so for buffers with offset 0 exactly when
`k ≤ b.len()`, but for already-sliced buffers some `k ≤ b.len()` abort too);
`k > b.len()` always aborts; and a successful slice has
`len() = b.len() − k` and `data() = b.data()[k..]`. -/
theorem C1_slice_guard (b : Buffer) (k : Nat) :
    ((b.slice k).isSome ↔ b.offset + k ≤ b.len) ∧
    (b.len < k → b.slice k = none) ∧
    (∀ b', b.slice k = some b' → b'.len = b.len - k ∧ b'.dataBytes = b.dataBytes.drop k) := by
  unfold Buffer.slice
  refine ⟨?_, ?_, ?_⟩
  · split <;> simp_all
  · intro h
    rw [if_neg (by omega)]
  · intro b' hb'
    split at hb'
    · cases hb'
      refine ⟨?_, ?_⟩
      · show b.data.length - (b.offset + k) = b.data.length - b.offset - k
        omega
      · show b.data.drop (b.offset + k) = (b.data.drop b.offset).drop k
        rw [List.drop_drop]
    · cases hb'

/-- Claim C1 witness: the amended theorem applied to
`Buffer::from([2,4,6,8,10])` and `k = 2`. -/
theorem C1_slice_guard_witness :
    Buffer.len { data := [2, 4, 6, 8, 10], offset := 2 }
        = (Buffer.fromBytes [2, 4, 6, 8, 10]).len - 2 ∧
    Buffer.dataBytes { data := [2, 4, 6, 8, 10], offset := 2 }
        = (Buffer.fromBytes [2, 4, 6, 8, 10]).dataBytes.drop 2 :=
  (C1_slice_guard (Buffer.fromBytes [2, 4, 6, 8, 10]) 2).2.2 _ (by decide)

/-! ## Claim C6 — Buffer equality -/

/-- Claim C6 counterexample: two buffers with identical `data()` (the logical
byte range `[1,2]`) but different bytes before their offsets compare unequal,
because the derived `PartialEq` runs `memcmp` over the whole region. -/
theorem C6_eq_counterexample :
    Buffer.dataBytes { data := [9, 1, 2], offset := 1 }
        = Buffer.dataBytes { data := [5, 1, 2], offset := 1 } ∧
    Buffer.beq { data := [9, 1, 2], offset := 1 } { data := [5, 1, 2], offset := 1 } = false := by
  decide

/-- Claim C6 (amended): `b1 == b2` holds iff the two buffers have the same
whole region bytes and the same offset — equality therefore implies
`b1.data() == b2.data()`, but not conversely: it is sensitive to the bytes
stored before each offset and to the offset values. -/
theorem C6_eq_amended (b1 b2 : Buffer) :
    (Buffer.beq b1 b2 = true ↔ b1.data = b2.data ∧ b1.offset = b2.offset) ∧
    (Buffer.beq b1 b2 = true → b1.dataBytes = b2.dataBytes) := by
  unfold Buffer.beq Buffer.dataBytes
  constructor
  · simp
  · intro h
    simp at h
    rw [h.1, h.2]

/-- Claim C6 witness: the amended theorem applied to two equal buffers. -/
theorem C6_eq_amended_witness :
    Buffer.dataBytes { data := [3, 7], offset := 1 }
        = Buffer.dataBytes { data := [3, 7], offset := 1 } :=
  (C6_eq_amended { data := [3, 7], offset := 1 } { data := [3, 7], offset := 1 }).2 (by decide)

/-! ## Claim C7 — MutableBuffer growth -/

/-- Claim C7: a capacity request `n ≤ capacity` is a no-op; a larger request
grows the capacity to `max(round_upto_multiple_of_64(n), 2 * capacity)` while
preserving `len` and the first `len` bytes; `MutableBuffer::new(1)` has
capacity 64 and a subsequent request of 100 yields capacity 128. -/
theorem C7_resize (b : MutableBuffer) (n : Nat) (hwf : b.wf) :
    (MutableBuffer.new 1).capacity = 64 ∧
    ((MutableBuffer.new 1).resize 100).capacity = 128 ∧
    (n ≤ b.capacity → b.resize n = b) ∧
    (b.capacity < n →
      (b.resize n).capacity = max (round64 n) (2 * b.capacity) ∧
      (b.resize n).len = b.len ∧
      (b.resize n).data.take b.len = b.data.take b.len) := by
  refine ⟨by decide, by decide, ?_, ?_⟩
  · intro h
    unfold MutableBuffer.resize
    rw [if_pos h]
  · intro h
    unfold MutableBuffer.resize
    rw [if_neg (by omega)]
    refine ⟨by simp [Nat.mul_comm], rfl, ?_⟩
    simp only []
    rw [List.take_append_eq_append_take]
    have h0 : b.len - b.data.length = 0 := by
      rcases hwf with ⟨h1, h2⟩
      omega
    rw [h0]
    simp

/-- Claim C7 witness: the growth branch applied to `MutableBuffer::new(1)`
with a capacity request of 100. -/
theorem C7_resize_witness :
    ((MutableBuffer.new 1).resize 100).capacity
        = max (round64 100) (2 * (MutableBuffer.new 1).capacity) ∧
    ((MutableBuffer.new 1).resize 100).len = (MutableBuffer.new 1).len ∧
    ((MutableBuffer.new 1).resize 100).data.take (MutableBuffer.new 1).len
        = (MutableBuffer.new 1).data.take (MutableBuffer.new 1).len :=
  (C7_resize (MutableBuffer.new 1) 100 (by constructor <;> decide)).2.2.2 (by decide)

/-! ## Claim C8 — MutableBuffer::write -/

/-- Claim C8: `write(bytes)` fails exactly when `bytes.len()` exceeds the
remaining capacity `capacity − len`; on failure the buffer is unchanged (the
guard returns before any copy); on success the bytes land at positions
`[len, len + bytes.len())`, the first `len` bytes are untouched, and `len`
advances by exactly `bytes.len()`. -/
theorem C8_write (b : MutableBuffer) (bytes : List Nat) (hwf : b.wf) :
    ((b.writeSt bytes).1 = false ↔ b.capacity - b.len < bytes.length) ∧
    ((b.writeSt bytes).1 = false → (b.writeSt bytes).2 = b) ∧
    ((b.writeSt bytes).1 = true →
      (b.writeSt bytes).2.len = b.len + bytes.length ∧
      (b.writeSt bytes).2.data.take b.len = b.data.take b.len ∧
      (((b.writeSt bytes).2.data.drop b.len).take bytes.length) = bytes) := by
  rcases hwf with ⟨hlen, hcap⟩
  have hA : (b.data.take b.len).length = b.len := by
    simp [List.length_take]
    omega
  unfold MutableBuffer.writeSt
  by_cases h : bytes.length > b.capacity - b.len
  · rw [if_pos h]
    refine ⟨by simpa using h, fun _ => rfl, by simp⟩
  · rw [if_neg h]
    refine ⟨by simpa using h, by simp, fun _ => ⟨rfl, ?_, ?_⟩⟩
    · show (b.data.take b.len ++ bytes ++ b.data.drop (b.len + bytes.length)).take b.len
          = b.data.take b.len
      rw [List.append_assoc]
      exact take_len_append _ _ _ hA
    · show ((b.data.take b.len ++ bytes ++ b.data.drop (b.len + bytes.length)).drop
          b.len).take bytes.length = bytes
      rw [List.append_assoc, drop_len_append _ _ _ hA]
      exact take_len_append _ _ _ rfl

/-- Claim C8 witness: a successful write of two bytes into
`MutableBuffer::new(1)`. -/
theorem C8_write_witness :
    ((MutableBuffer.new 1).writeSt [7, 8]).2.len = (MutableBuffer.new 1).len + 2 ∧
    ((MutableBuffer.new 1).writeSt [7, 8]).2.data.take (MutableBuffer.new 1).len
        = (MutableBuffer.new 1).data.take (MutableBuffer.new 1).len ∧
    ((((MutableBuffer.new 1).writeSt [7, 8]).2.data.drop (MutableBuffer.new 1).len).take 2)
        = [7, 8] :=
  (C8_write (MutableBuffer.new 1) [7, 8] (by constructor <;> decide)).2.2 (by decide)

/-! ## Claims C2 and C10 — the JSON surface of DataType/Field -/

/-- Claim C2: evaluating the round-trip at the failing inputs.  Rendering
`Int64` parses back as `Int32` (the parser's 64-bit signed branch,
datatypes.rs:175, returns `Int32`), and rendering `List` produces
`{"name":"list",...}`, which the parser rejects; nearby supported variants
(`Int32`, `Utf8`) do round-trip, and a `Field` carrying `Int64` comes back
with `Int32`. -/
theorem C2_roundtrip_bug :
    DataType.fromJson (DataType.to_json .int64) = .ok .int32 ∧
    DataType.fromJson (DataType.to_json (.list .int32))
        = .error (.parseError "invalid type name") ∧
    DataType.fromJson (DataType.to_json .int32) = .ok .int32 ∧
    DataType.fromJson (DataType.to_json .utf8) = .ok .utf8 ∧
    ArrowField.fromJson (ArrowField.to_json { name := "a", data_type := .int64, nullable := true })
        = .ok { name := "a", data_type := .int32, nullable := true } := by
  refine ⟨?_, ?_, ?_, ?_, ?_⟩ <;>
    simp [DataType.to_json, DataType.fromJson, jlookup, ArrowField.to_json, fieldToJsonCore,
      ArrowField.fromJson, fieldFromCore, findTypeAndParse]

/-- The "fields" value parse never yields a `List`. -/
theorem structFieldsValue_notList (v : JsonValue) :
    resultNotList (structFieldsValue v) = true := by
  match v with
  | .null | .bool _ | .num _ | .str _ | .obj _ => simp [structFieldsValue, resultNotList]
  | .arr items =>
    simp only [structFieldsValue]
    cases h : fieldsFrom items <;> simp [resultNotList]

/-- Every result of the struct-fields branch is an error or a `Struct`. -/
theorem structFieldsFrom_notList (ms : List (String × JsonValue)) :
    resultNotList (structFieldsFrom ms) = true := by
  induction ms with
  | nil => simp [structFieldsFrom, resultNotList]
  | cons head tail ih =>
    obtain ⟨k, v⟩ := head
    by_cases hk : k = "fields" <;> simp only [structFieldsFrom, if_pos, if_neg, hk, ite_true,
      ite_false]
    · exact structFieldsValue_notList v
    · exact ih

/-- Claim C10: any JSON object whose "name" member is the string "list" is
rejected by `DataType::from` with a `ParseError` (the parser has no branch for
the name "list"), and no parse result is ever `DataType::List`. -/
theorem C10_no_list_from_json :
    (∀ members, jlookup "name" members = some (.str "list") →
      DataType.fromJson (.obj members) = .error (.parseError "invalid type name")) ∧
    (∀ v, resultNotList (DataType.fromJson v) = true) := by
  constructor
  · intro members h
    simp [DataType.fromJson, h]
  · intro v
    match v with
    | .null | .bool _ | .num _ | .str _ | .arr _ => simp [DataType.fromJson, resultNotList]
    | .obj members =>
      simp only [DataType.fromJson]
      split
      · simp [resultNotList]
      · simp [resultNotList]
      · split <;> simp [resultNotList]
      · split
        · split <;> simp [resultNotList]
        · split <;> simp [resultNotList]
        · simp [resultNotList]
      · simp [resultNotList]
      · exact structFieldsFrom_notList members

/-- Claim C10 witness: the rejection applied to the object
`{"name":"list"}`, and the no-List property at a concrete value. -/
theorem C10_no_list_witness :
    DataType.fromJson (.obj [("name", .str "list")])
        = .error (.parseError "invalid type name") ∧
    resultNotList (DataType.fromJson .null) = true :=
  ⟨C10_no_list_from_json.1 [("name", .str "list")] (by simp [jlookup]),
   C10_no_list_from_json.2 .null⟩

/-! ## BufferBuilder<bool> invariant lemmas -/

theorem div8_lt {i c : Nat} (h : i < 8 * c) : i / 8 < c :=
  Nat.div_lt_of_lt_mul (by omega)

theorem le_div8 {i c : Nat} (h : 8 * c ≤ i) : c ≤ i / 8 :=
  (Nat.le_div_iff_mul_le (by norm_num)).mpr (by omega)

theorem bool_new_eq (c : Nat) :
    BoolBufferBuilder.new c =
      { buffer := { data := List.replicate (round64 (ceilDiv c 8)) 0, len := 0,
                    capacity := round64 (ceilDiv c 8) }, len := 0 } := by
  unfold BoolBufferBuilder.new MutableBuffer.new MutableBuffer.set_null_bits
  dsimp only
  rw [round64_idem]
  simp [allocUninit, List.drop_eq_nil_of_le]

theorem BoolInv_new (c : Nat) : BoolInv [] (BoolBufferBuilder.new c) := by
  rw [bool_new_eq]
  refine ⟨rfl, rfl, by simp, by simp, ?_, ?_, ?_⟩
  · intro x hx
    rw [List.eq_of_mem_replicate hx]
    norm_num
  · simp [count_set_bits_replicate_zero]
  · intro i hi
    unfold getBitInBytes
    dsimp only
    rw [getD_replicate (div8_lt hi)]
    simp [Nat.zero_testBit]

theorem ceilDiv8_succ (c : Nat) : ceilDiv (8 * c + 1) 8 = c + 1 := by
  unfold ceilDiv
  have h : 8 * c + 1 + 8 - 1 = 8 * (c + 1) := by omega
  rw [h, Nat.mul_div_cancel_left _ (by norm_num)]

theorem set_null_bits_of_append {data : List Nat} {l c k s cnt : Nat} (hs : s = data.length)
    (hcnt : cnt = k) :
    (MutableBuffer.mk (data ++ List.replicate k 170) l c).set_null_bits s cnt
      = MutableBuffer.mk (data ++ List.replicate k 0) l c := by
  subst hs
  rw [hcnt]
  have h := set_zero_suffix data (List.replicate k 170) l c
  simpa using h

theorem BoolInv_reserve1 {pushed : List Bool} {b : BoolBufferBuilder} (h : BoolInv pushed b) :
    BoolInv pushed (b.reserve 1) ∧ pushed.length + 1 ≤ 8 * (b.reserve 1).buffer.capacity ∧
    (b.reserve 1).len = b.len := by
  obtain ⟨hlen, hblen, hdlen, hcap, hbytes, hcount, hbits⟩ := h
  unfold BoolBufferBuilder.reserve BoolBufferBuilder.capacity
  dsimp only
  split
  · -- growth: b.len + 1 > capacity * 8, so b.len = 8 * capacity exactly
    rename_i hgt
    have hlen8 : b.len = 8 * b.buffer.capacity := by omega
    have hX : ceilDiv (b.len + 1) 8 = b.buffer.capacity + 1 := by
      rw [hlen8, ceilDiv8_succ]
    set M := max (round64 (b.buffer.capacity + 1)) (b.buffer.capacity * 2) with hM
    have hM1 : b.buffer.capacity + 1 ≤ M := le_trans (round64_ge _) (Nat.le_max_left _ _)
    have hresize : b.buffer.reserve (ceilDiv (b.len + 1) 8) =
        MutableBuffer.mk (b.buffer.data ++ List.replicate (M - b.buffer.capacity) 170)
          b.buffer.len M := by
      rw [hX]
      unfold MutableBuffer.reserve MutableBuffer.resize
      rw [if_neg (by omega)]
      simp [allocUninit]
    rw [hresize]
    dsimp only
    rw [set_null_bits_of_append (k := M - b.buffer.capacity) hdlen.symm rfl]
    have hdl : (b.buffer.data ++ List.replicate (M - b.buffer.capacity) 0).length = M := by
      simp [hdlen]
      omega
    refine ⟨⟨hlen, hblen, hdl, by dsimp only; omega, ?_, ?_, ?_⟩, by dsimp only; omega, rfl⟩
    · intro x hx
      rcases List.mem_append.mp hx with hx | hx
      · exact hbytes x hx
      · rw [List.eq_of_mem_replicate hx]
        norm_num
    · rw [count_set_bits_append, count_set_bits_replicate_zero, hcount]
      omega
    · intro i hi
      dsimp only at hi
      unfold getBitInBytes
      by_cases hic : i < 8 * b.buffer.capacity
      · rw [getD_append_left (by rw [hdlen]; exact div8_lt hic)]
        exact hbits i hic
      · rw [List.getD_append_right _ _ _ _ (by rw [hdlen]; exact le_div8 (by omega))]
        rw [getD_replicate ?_]
        · rw [Nat.zero_testBit, getD_of_length_le (by omega)]
        · have := div8_lt hi
          omega
  · -- no growth
    rename_i hng
    exact ⟨⟨hlen, hblen, hdlen, hcap, hbytes, hcount, hbits⟩, by omega, rfl⟩

theorem BoolInv_setbit {pushed : List Bool} {b1 : BoolBufferBuilder} (h : BoolInv pushed b1)
    (hb : pushed.length + 1 ≤ 8 * b1.buffer.capacity) :
    BoolInv (pushed ++ [true])
      { buffer := { b1.buffer with data := setBitInBytes b1.buffer.data b1.len },
        len := b1.len + 1 } := by
  obtain ⟨hlen, hblen, hdlen, hcap, hbytes, hcount, hbits⟩ := h
  have hLlt : b1.len < 8 * b1.buffer.capacity := by omega
  have hk0 : b1.len / 8 < b1.buffer.data.length := by
    rw [hdlen]
    exact div8_lt hLlt
  have hj0 : b1.len % 8 < 8 := Nat.mod_lt _ (by norm_num)
  have hBlt : b1.buffer.data.getD (b1.len / 8) 0 < 256 := hbytes _ (getD_mem hk0 0)
  have hbitL : (b1.buffer.data.getD (b1.len / 8) 0).testBit (b1.len % 8) = false := by
    have hx := hbits b1.len hLlt
    unfold getBitInBytes at hx
    exact hx.trans (getD_of_length_le (by omega) _)
  unfold setBitInBytes
  refine ⟨by simp [hlen], hblen, by simp [List.length_set, hdlen], by simp; omega, ?_, ?_, ?_⟩
  · intro x hx
    rcases List.mem_or_eq_of_mem_set hx with hx | hx
    · exact hbytes x hx
    · rw [hx]
      exact byte_or_lt _ hBlt _ hj0
  · dsimp only
    have hset := count_set_bits_set
      (x := b1.buffer.data.getD (b1.len / 8) 0 ||| (1 <<< (b1.len % 8))) hk0
    rw [byte_or_popcount _ hBlt _ hj0 hbitL] at hset
    rw [List.count_append, List.count_singleton]
    simp only [beq_self_eq_true, if_true]
    omega
  · intro i hi
    dsimp only at hi
    rw [append_single_getD]
    unfold getBitInBytes
    dsimp only
    by_cases hk : i / 8 = b1.len / 8
    · rw [hk, getD_set_self hk0]
      rw [byte_or_testBit _ hBlt _ hj0 _ (Nat.mod_lt _ (by norm_num))]
      by_cases hiL : i = b1.len
      · rw [if_neg (by omega), if_pos (by omega)]
        rw [decide_eq_true (by omega)]
        simp
      · have hmod : ¬ (b1.len % 8 = i % 8) := by omega
        rw [decide_eq_false hmod]
        have hx := hbits i hi
        unfold getBitInBytes at hx
        rw [hk] at hx
        rw [Bool.or_false, hx]
        split_ifs with h1 h2
        · rfl
        · omega
        · exact getD_of_length_le (by omega) _
    · rw [getD_set_ne _ _ (fun hh => hk hh.symm)]
      have hiL : i ≠ b1.len := by omega
      have hx := hbits i hi
      unfold getBitInBytes at hx
      rw [hx]
      split_ifs with h1 h2
      · rfl
      · omega
      · exact getD_of_length_le (by omega) _

theorem BoolInv_push {pushed : List Bool} {b : BoolBufferBuilder} (h : BoolInv pushed b)
    (v : Bool) : BoolInv (pushed ++ [v]) (b.push v) := by
  obtain ⟨hres, hbound, hlenr⟩ := BoolInv_reserve1 h
  unfold BoolBufferBuilder.push
  dsimp only
  cases v with
  | false =>
    rw [if_neg (by simp)]
    obtain ⟨hlen, hblen, hdlen, hcap, hbytes, hcount, hbits⟩ := hres
    refine ⟨by simp [hlen], hblen, hdlen, by simp; omega, hbytes, ?_, ?_⟩
    · rw [List.count_append, hcount, List.count_singleton]
      simp
    · intro i hi
      rw [append_single_getD, hbits i hi]
      split_ifs with h1 h2
      · rfl
      · subst h2
        exact getD_of_length_le (le_refl _) _
      · exact getD_of_length_le (by omega) _
  | true =>
    rw [if_pos rfl]
    exact BoolInv_setbit hres hbound

theorem BoolInv_fold {pushed : List Bool} {b : BoolBufferBuilder} (h : BoolInv pushed b)
    (vs : List Bool) : BoolInv (pushed ++ vs) (vs.foldl BoolBufferBuilder.push b) := by
  induction vs generalizing pushed b with
  | nil => simpa using h
  | cons v t ih =>
    have step := ih (BoolInv_push h v)
    simpa using step

theorem reserve_noop {b : MutableBuffer} {m : Nat} (h : m ≤ b.capacity) : b.reserve m = b := by
  unfold MutableBuffer.reserve MutableBuffer.resize
  rw [if_pos h]

theorem resizeLen_le {b : MutableBuffer} {m : Nat} (hcap : m ≤ b.capacity) (hlen : b.len = 0) :
    b.resizeLen m = { b with len := m } := by
  unfold MutableBuffer.resizeLen
  split
  · dsimp only
    rw [reserve_noop hcap]
  · rename_i hnm
    have hm0 : m = 0 := by omega
    subst hm0
    conv_rhs => rw [← hlen]

theorem bool_finish_spec {pushed : List Bool} {b : BoolBufferBuilder} (h : BoolInv pushed b) :
    (b.finish).data = b.buffer.data.take (ceilDiv pushed.length 8) ∧
    (b.finish).offset = 0 ∧
    Buffer.len (b.finish) = ceilDiv pushed.length 8 ∧
    (b.finish).dataBytes = b.buffer.data.take (ceilDiv pushed.length 8) ∧
    (∀ i, i < 8 * ceilDiv pushed.length 8 →
      getBitInBytes (b.finish).dataBytes i = pushed.getD i false) ∧
    count_set_bits (b.finish).dataBytes = pushed.count true := by
  obtain ⟨hlen, hblen, hdlen, hcap, hbytes, hcount, hbits⟩ := h
  have hm : ceilDiv pushed.length 8 ≤ b.buffer.capacity := ceilDiv_le_iff.mpr hcap
  have hlen8m : pushed.length ≤ 8 * ceilDiv pushed.length 8 := ceilDiv_le_iff.mp (le_refl _)
  unfold BoolBufferBuilder.finish
  dsimp only
  rw [hlen, resizeLen_le hm hblen]
  unfold MutableBuffer.freeze Buffer.len Buffer.dataBytes
  dsimp only
  have htakelen : (b.buffer.data.take (ceilDiv pushed.length 8)).length
      = ceilDiv pushed.length 8 := by
    simp [List.length_take]
    omega
  refine ⟨rfl, rfl, by simp [htakelen], by simp, ?_, ?_⟩
  · intro i hi
    unfold getBitInBytes
    rw [List.drop_zero, getD_take (div8_lt hi)]
    exact hbits i (by omega)
  · rw [List.drop_zero]
    have hdropzero : b.buffer.data.drop (ceilDiv pushed.length 8)
        = List.replicate (b.buffer.capacity - ceilDiv pushed.length 8) 0 := by
      apply List.ext_getElem
      · simp [List.length_drop, hdlen]
      · intro n h1 h2
        rw [List.getElem_drop]
        have hidx : ceilDiv pushed.length 8 + n < b.buffer.data.length := by
          simp [List.length_drop] at h1
          omega
        rw [List.getElem_replicate]
        rw [← List.getD_eq_getElem _ 0 hidx]
        apply byte_zero_of_no_bits _ (hbytes _ (getD_mem hidx 0))
        intro j hj
        have hbig : 8 * (ceilDiv pushed.length 8 + n) + j < 8 * b.buffer.capacity := by
          rw [hdlen] at hidx
          omega
        have hx := hbits (8 * (ceilDiv pushed.length 8 + n) + j) hbig
        unfold getBitInBytes at hx
        rw [bit_index_div _ hj, bit_index_mod _ hj] at hx
        rw [hx]
        exact getD_of_length_le (by omega) _
    have hsplit := List.take_append_drop (ceilDiv pushed.length 8) b.buffer.data
    have hc : count_set_bits (b.buffer.data.take (ceilDiv pushed.length 8))
        + count_set_bits (b.buffer.data.drop (ceilDiv pushed.length 8))
        = count_set_bits b.buffer.data := by
      rw [← count_set_bits_append, hsplit]
    rw [hdropzero, count_set_bits_replicate_zero] at hc
    omega

/-! ## Claim C3 — BufferBuilder<bool> bit packing -/

/-- Claim C3: after pushing `vs` into a `BufferBuilder<bool>` (any initial
capacity), `finish()` returns a buffer of `ceil(n/8)` bytes in which bit `i`
(LSB-0 within each byte) is the `i`-th pushed value for `i < n` and every
unused tail bit is zero; pushing `[F,F,F,T,F,F,T,F,F,T]` yields exactly the
two bytes `[0x48, 0x02]`. -/
theorem C3_bool_bitpacking (cap : Nat) (vs : List Bool) :
    Buffer.len ((vs.foldl BoolBufferBuilder.push (BoolBufferBuilder.new cap)).finish)
        = ceilDiv vs.length 8 ∧
    (∀ i, i < vs.length →
      getBitInBytes
          ((vs.foldl BoolBufferBuilder.push (BoolBufferBuilder.new cap)).finish).dataBytes i
        = vs.getD i false) ∧
    (∀ i, vs.length ≤ i → i < 8 * ceilDiv vs.length 8 →
      getBitInBytes
          ((vs.foldl BoolBufferBuilder.push (BoolBufferBuilder.new cap)).finish).dataBytes i
        = false) ∧
    ((List.foldl BoolBufferBuilder.push (BoolBufferBuilder.new 8)
        [false, false, false, true, false, false, true, false, false, true]).finish).dataBytes
      = [72, 2] := by
  have hinv : BoolInv vs (vs.foldl BoolBufferBuilder.push (BoolBufferBuilder.new cap)) := by
    have h := BoolInv_fold (BoolInv_new cap) vs
    simpa using h
  obtain ⟨hd, ho, hlen, hdb, hbits, hcount⟩ := bool_finish_spec hinv
  have hn8 : vs.length ≤ 8 * ceilDiv vs.length 8 := ceilDiv_le_iff.mp (le_refl _)
  refine ⟨hlen, ?_, ?_, by decide⟩
  · intro i hi
    exact hbits i (by omega)
  · intro i h1 h2
    rw [hbits i h2]
    exact getD_of_length_le h1 _

/-- Claim C3 witness: bit 3 of the finished buffer after pushing
`[F,F,F,T]` into a builder of capacity 8. -/
theorem C3_bool_bitpacking_witness :
    getBitInBytes (((List.foldl BoolBufferBuilder.push (BoolBufferBuilder.new 8)
        [false, false, false, true]).finish).dataBytes) 3
      = [false, false, false, true].getD 3 false :=
  (C3_bool_bitpacking 8 [false, false, false, true]).2.1 3 (by decide)

/-! ## Fixed-width BufferBuilder invariant lemmas -/

theorem mul_succ_le {w i s : Nat} (h : i < s) : w * i + w ≤ w * s := by
  have hx : w * (i + 1) ≤ w * s := Nat.mul_le_mul (le_refl w) (by omega)
  rw [Nat.mul_succ] at hx
  exact hx

theorem WInv_new (w cap : Nat) : WInv w [] (BufferBuilderW.new w cap) := by
  unfold WInv BufferBuilderW.new MutableBuffer.new
  dsimp only
  refine ⟨rfl, by simp, by simp [allocUninit], by simp, ?_⟩
  intro i v hv _
  simp at hv

theorem flatten_encode_length (w : Nat) (vs : List Nat) :
    ((vs.map (encodeLE w)).flatten).length = w * vs.length := by
  induction vs with
  | nil => simp
  | cons a t ih =>
    simp only [List.map_cons, List.flatten_cons, List.length_append, encodeLE_length, ih,
      List.length_cons]
    ring

theorem flatten_encode_seg (w : Nat) (vs : List Nat) {j : Nat} (hj : j < vs.length) :
    ((((vs.map (encodeLE w)).flatten).drop (w * j)).take w) = encodeLE w (vs.getD j 0) := by
  induction vs generalizing j with
  | nil => simp at hj
  | cons a t ih =>
    cases j with
    | zero =>
      simp only [List.map_cons, List.flatten_cons, Nat.mul_zero, List.drop_zero,
        List.getD_cons_zero]
      exact take_len_append _ _ _ (encodeLE_length w a)
    | succ m =>
      have hw : w * (m + 1) = w + w * m := by ring
      simp only [List.map_cons, List.flatten_cons, List.getD_cons_succ]
      rw [hw, drop_add_append _ _ (encodeLE_length w a)]
      exact ih (by simpa using hj)

theorem getD_map_some {vs : List Nat} {i : Nat} (h : i < vs.length) :
    (vs.map some).getD i none = some (vs.getD i 0) := by
  induction vs generalizing i with
  | nil => simp at h
  | cons a t ih =>
    cases i with
    | zero => simp
    | succ n => simpa using ih (by simpa using h)

theorem writeSt_success {b : MutableBuffer} {bytes : List Nat}
    (h : b.len + bytes.length ≤ b.capacity) :
    b.writeSt bytes = (true,
      { data := b.data.take b.len ++ bytes ++ b.data.drop (b.len + bytes.length),
        len := b.len + bytes.length, capacity := b.capacity }) := by
  unfold MutableBuffer.writeSt
  rw [if_neg (by omega)]

theorem WInv_write {w : Nat} {slots : List (Option Nat)} {b : BufferBuilderW w}
    (h : WInv w slots b) (newVals : List (Option Nat)) (bytes : List Nat)
    (hblen : bytes.length = w * newVals.length)
    (hseg : ∀ i v, newVals.getD i none = some v → i < newVals.length →
      ((bytes.drop (w * i)).take w) = encodeLE w v) :
    WInv w (slots ++ newVals) ((b.reserve newVals.length).write_bytes bytes newVals.length) := by
  obtain ⟨hlen, hbuflen, hdlen, hcap, hslots⟩ := h
  have hwf : b.buffer.wf := ⟨hdlen, by omega⟩
  obtain ⟨⟨hdlen1, hcap1⟩, hlen1, hge1, hgeold1, k, hdata1, hcapk1⟩ :=
    resize_spec hwf (w * (b.len + newVals.length))
  have hXsplit : w * (b.len + newVals.length) = w * slots.length + w * newVals.length := by
    rw [hlen]
    ring
  have hrlen : (b.buffer.resize (w * (b.len + newVals.length))).len = w * slots.length := by
    rw [hlen1, hbuflen]
  have hwok : (b.buffer.resize (w * (b.len + newVals.length))).len + bytes.length
      ≤ (b.buffer.resize (w * (b.len + newVals.length))).capacity := by
    rw [hrlen, hblen]
    omega
  have hws : w * slots.length ≤ b.buffer.capacity := by
    rw [← hbuflen]
    exact hcap
  show WInv w (slots ++ newVals)
    (BufferBuilderW.write_bytes
      { buffer := b.buffer.resize (w * (b.len + newVals.length)), len := b.len } bytes
      newVals.length)
  unfold BufferBuilderW.write_bytes
  dsimp only
  rw [writeSt_success hwok]
  dsimp only
  rw [if_pos rfl, hrlen, hdata1, hcapk1]
  have hAlen : (b.buffer.data ++ List.replicate k 170).length = b.buffer.capacity + k := by
    simp [hdlen]
  have hAtake : ((b.buffer.data ++ List.replicate k 170).take (w * slots.length)).length
      = w * slots.length := by
    simp [List.length_take, hAlen]
    omega
  refine ⟨by simp [hlen], by rw [hblen]; simp; ring, ?_, ?_, ?_⟩
  · dsimp only
    simp only [List.length_append, List.length_take, List.length_drop, hAlen, hblen]
    omega
  · dsimp only
    rw [hblen]
    omega
  · intro i v hgd hilen
    dsimp only
    rw [List.length_append] at hilen
    by_cases hi : i < slots.length
    · rw [getD_append_left hi] at hgd
      have h1 : w * i + w ≤ w * slots.length := mul_succ_le hi
      rw [List.append_assoc]
      rw [seg_append_right _ _ (by rw [hAtake]; omega)]
      rw [seg_of_take _ (by omega : w * i + w ≤ w * slots.length)]
      rw [seg_append_right _ _ (by rw [hdlen]; omega)]
      exact hslots i v hgd hi
    · rw [List.getD_append_right _ _ _ _ (by omega)] at hgd
      have hi' : i - slots.length < newVals.length := by omega
      have hsplit : w * i = w * slots.length + w * (i - slots.length) := by
        rw [← Nat.mul_add]
        congr 1
        omega
      rw [List.append_assoc, hsplit]
      rw [drop_add_append _ _ hAtake]
      rw [seg_append_right _ _ (by rw [hblen]; exact mul_succ_le hi')]
      exact hseg (i - slots.length) v hgd hi'

theorem WInv_push {w : Nat} {slots : List (Option Nat)} {b : BufferBuilderW w} (v : Nat)
    (h : WInv w slots b) : WInv w (slots ++ [some v]) (b.push v) := by
  have hw := WInv_write h [some v] (encodeLE w v) (by simp [encodeLE_length])
    (by
      intro i v' hgd hi
      simp at hi
      have hi0 : i = 0 := by omega
      subst hi0
      simp at hgd
      subst hgd
      simp [List.take_of_length_le, encodeLE_length])
  exact hw

theorem WInv_push_slice {w : Nat} {slots : List (Option Nat)} {b : BufferBuilderW w}
    (vs : List Nat) (h : WInv w slots b) :
    WInv w (slots ++ vs.map some) (b.push_slice vs) := by
  have hw := WInv_write h (vs.map some) ((vs.map (encodeLE w)).flatten)
    (by rw [flatten_encode_length]; simp)
    (by
      intro i v hgd hi
      rw [List.length_map] at hi
      rw [getD_map_some hi] at hgd
      cases hgd
      exact flatten_encode_seg w vs hi)
  have hlen : (vs.map some).length = vs.length := by simp
  rw [hlen] at hw
  exact hw

theorem WInv_advance {w : Nat} {slots : List (Option Nat)} {b : BufferBuilderW w} (k : Nat)
    (h : WInv w slots b) : WInv w (slots ++ List.replicate k none) (b.advance k) := by
  obtain ⟨hlen, hbuflen, hdlen, hcap, hslots⟩ := h
  have htgt : (b.len + k) * w = w * (slots.length + k) := by
    rw [hlen]
    ring
  unfold BufferBuilderW.advance MutableBuffer.resizeLen
  dsimp only
  split
  · rename_i hlt
    have hwf : b.buffer.wf := ⟨hdlen, by omega⟩
    obtain ⟨⟨hdlen1, hcap1⟩, hlen1, hge1, hgeold1, k', hdata1, hcapk1⟩ :=
      resize_spec hwf ((b.len + k) * w)
    show WInv w (slots ++ List.replicate k none)
      { buffer := { b.buffer.resize ((b.len + k) * w) with len := (b.len + k) * w },
        len := b.len + k }
    refine ⟨by simp [hlen], ?_, ?_, ?_, ?_⟩
    · dsimp only
      rw [htgt]
      simp
    · dsimp only
      exact hdlen1
    · dsimp only
      exact hge1
    · intro i v hgd hilen
      dsimp only
      rw [hdata1]
      simp only [List.length_append, List.length_replicate] at hilen
      by_cases hi : i < slots.length
      · rw [getD_append_left hi] at hgd
        rw [seg_append_right _ _ (by rw [hdlen]; have := mul_succ_le (w := w) hi; omega)]
        exact hslots i v hgd hi
      · rw [List.getD_append_right _ _ _ _ (by omega)] at hgd
        rw [getD_replicate (by omega : i - slots.length < k)] at hgd
        cases hgd
  · rename_i hge
    have h1 : w * (slots.length + k) ≤ w * slots.length := by
      rw [← htgt]
      omega
    have h2 : w * slots.length ≤ w * (slots.length + k) :=
      Nat.mul_le_mul (le_refl w) (by omega)
    refine ⟨by simp [hlen], ?_, hdlen, hcap, ?_⟩
    · dsimp only
      simp only [List.length_append, List.length_replicate]
      omega
    · intro i v hgd hilen
      dsimp only
      by_cases hi : i < slots.length
      · rw [getD_append_left hi] at hgd
        exact hslots i v hgd hi
      · simp only [List.length_append, List.length_replicate] at hilen
        rw [List.getD_append_right _ _ _ _ (by omega)] at hgd
        rw [getD_replicate (by omega : i - slots.length < k)] at hgd
        cases hgd

/-! ## PrimitiveArrayBuilder invariant lemmas -/

theorem PrimInv_new (w cap : Nat) : PrimInv w [] (PrimitiveArrayBuilderM.new w cap) :=
  ⟨WInv_new w cap, by simpa using BoolInv_new cap⟩

theorem PrimInv_push {w : Nat} {slots : List (Option Nat)} {st : PrimitiveArrayBuilderM w}
    (h : PrimInv w slots st) (v : Nat) : PrimInv w (slots ++ [some v]) (st.push v) := by
  obtain ⟨hv, hb⟩ := h
  unfold PrimitiveArrayBuilderM.push
  refine ⟨WInv_push v hv, ?_⟩
  have hstep := BoolInv_push hb true
  simpa [List.map_append] using hstep

theorem PrimInv_push_null {w : Nat} {slots : List (Option Nat)} {st : PrimitiveArrayBuilderM w}
    (h : PrimInv w slots st) : PrimInv w (slots ++ [none]) st.push_null := by
  obtain ⟨hv, hb⟩ := h
  unfold PrimitiveArrayBuilderM.push_null
  refine ⟨?_, ?_⟩
  · have hstep := WInv_advance 1 hv
    simpa using hstep
  · have hstep := BoolInv_push hb false
    simpa [List.map_append] using hstep

theorem PrimInv_step {w : Nat} {slots : List (Option Nat)} {st : PrimitiveArrayBuilderM w}
    (h : PrimInv w slots st) (op : PrimOp) :
    PrimInv w (slots ++ expandOp op) (applyPrimOp st op) := by
  cases op with
  | push v => exact PrimInv_push h v
  | pushNull => exact PrimInv_push_null h
  | pushOption v =>
    cases v with
    | none => exact PrimInv_push_null h
    | some x => exact PrimInv_push h x
  | pushSlice vs =>
    obtain ⟨hv, hb⟩ := h
    unfold applyPrimOp PrimitiveArrayBuilderM.push_slice expandOp BoolBufferBuilder.push_slice
    refine ⟨WInv_push_slice vs hv, ?_⟩
    have hstep := BoolInv_fold hb (List.replicate vs.length true)
    rw [List.map_append, map_some_isSome]
    exact hstep

theorem PrimInv_run {w : Nat} (ops : List PrimOp) {slots : List (Option Nat)}
    {st : PrimitiveArrayBuilderM w} (h : PrimInv w slots st) :
    PrimInv w (slots ++ expandOps ops) (runPrim ops st) := by
  induction ops generalizing slots st with
  | nil => simpa [expandOps] using h
  | cons op t ih =>
    have h2 := ih (PrimInv_step h op)
    unfold runPrim at *
    simp only [List.foldl_cons]
    have hexp : expandOps (op :: t) = expandOp op ++ expandOps t := by
      simp [expandOps]
    rw [hexp, ← List.append_assoc]
    exact h2

/-! ## Claim C9 — values/validity lengths agree -/

/-- Claim C9: after any sequence of push, push_null, push_option and
push_slice calls on a `PrimitiveArrayBuilder`, the values builder and the
validity (bitmap) builder hold the same number of elements.  Any such sequence
is a `runPrim` of some op list, so this covers the state after every call. -/
theorem C9_values_bitmap_len (w cap : Nat) (ops : List PrimOp) :
    (runPrim ops (PrimitiveArrayBuilderM.new w cap)).values_builder.len
      = (runPrim ops (PrimitiveArrayBuilderM.new w cap)).bitmap_builder.len := by
  obtain ⟨⟨hvlen, _⟩, ⟨hblen, _⟩⟩ := PrimInv_run ops (PrimInv_new w cap)
  rw [hvlen, hblen]
  simp

/-! ## Claim C4 — PrimitiveArrayBuilder output -/

theorem count_true_map_isSome (slots : List (Option Nat)) :
    (slots.map Option.isSome).count true = slots.countP Option.isSome := by
  induction slots with
  | nil => simp
  | cons a t ih =>
    cases a <;> simp [List.count_cons, List.countP_cons, ih]

theorem countP_none_some (slots : List (Option Nat)) :
    slots.countP Option.isNone + slots.countP Option.isSome = slots.length := by
  induction slots with
  | nil => simp
  | cons a t ih =>
    cases a <;> simp [List.countP_cons] <;> omega

theorem prim_finish_spec {w : Nat} {slots : List (Option Nat)} {st : PrimitiveArrayBuilderM w}
    (h : PrimInv w slots st) (dt : DataType) :
    (st.finish dt).len = slots.length ∧
    (st.finish dt).null_count = slots.countP Option.isNone ∧
    (∀ i, i < slots.length →
      arrayIsNull (st.finish dt) i = (slots.getD i none).isNone) ∧
    (∀ i v, i < slots.length → slots.getD i none = some v →
      primValue w (st.finish dt) i = v % 2 ^ (8 * w)) := by
  obtain ⟨⟨hvlen, hvbuflen, hvdlen, hvcap, hvslots⟩, hbinv⟩ := h
  obtain ⟨hbd, hbo, hblen2, hbdb, hbbits, hbcount⟩ := bool_finish_spec hbinv
  have hflen : (slots.map Option.isSome).length = slots.length := by simp
  have hb8 : slots.length ≤ 8 * ceilDiv (slots.map Option.isSome).length 8 := by
    rw [hflen]
    exact ceilDiv_le_iff.mp (le_refl _)
  unfold PrimitiveArrayBuilderM.finish arrayIsNull primValue ArrayDataM.len
    ArrayDataM.null_count ArrayDataM.buffers ArrayDataM.null_bitmap
  dsimp only
  refine ⟨hvlen, ?_, ?_, ?_⟩
  · rw [hvlen, hbcount, count_true_map_isSome]
    have h1 := countP_none_some slots
    have h2 := List.countP_le_length (p := Option.isSome) (l := slots)
    omega
  · intro i hi
    rw [hbbits i (by omega)]
    rw [getD_map_isSome hi]
    cases slots.getD i none <;> rfl
  · intro i v hi hgd
    simp only [List.getD_cons_zero]
    unfold BufferBuilderW.finish MutableBuffer.freeze Buffer.dataBytes
    dsimp only
    rw [List.drop_zero, hvbuflen, Nat.mul_comm i w]
    rw [seg_of_take _ (mul_succ_le hi)]
    rw [hvslots i v hgd hi]
    exact decodeLE_encodeLE w v

/-- Claim C4: for any sequence of push / push_null / push_option / push_slice
calls (each slice element and each option counted as one slot), `finish()`
yields an array with `length = n`, `null_count` = number of null slots,
`is_null(i)` true exactly at the null slots, and `value(i)` equal to the
pushed value at every non-null slot (values are `w`-byte bit patterns, hence
the `v < 2^(8w)` hypothesis); and the concrete i32 example
`push(0); push(2); push_null(); push_null(); push(4)` gives length 5,
null_count 2, is_null `[F,F,T,T,F]` and values 0, 2, 4 at the valid slots. -/
theorem C4_primitive_builder (w cap : Nat) (dt : DataType) (ops : List PrimOp)
    (hbound : ∀ v, some v ∈ expandOps ops → v < 2 ^ (8 * w)) :
    (((runPrim ops (PrimitiveArrayBuilderM.new w cap)).finish dt).len
        = (expandOps ops).length ∧
      ((runPrim ops (PrimitiveArrayBuilderM.new w cap)).finish dt).null_count
        = (expandOps ops).countP Option.isNone ∧
      (∀ i, i < (expandOps ops).length →
        arrayIsNull ((runPrim ops (PrimitiveArrayBuilderM.new w cap)).finish dt) i
          = ((expandOps ops).getD i none).isNone) ∧
      (∀ i v, i < (expandOps ops).length → (expandOps ops).getD i none = some v →
        primValue w ((runPrim ops (PrimitiveArrayBuilderM.new w cap)).finish dt) i = v)) ∧
    (((runPrim ([.push 0, .push 2, .pushNull, .pushNull, .push 4] : List PrimOp)
        (PrimitiveArrayBuilderM.new 4 5)).finish .int32).len = 5 ∧
      ((runPrim ([.push 0, .push 2, .pushNull, .pushNull, .push 4] : List PrimOp)
        (PrimitiveArrayBuilderM.new 4 5)).finish .int32).null_count = 2 ∧
      (List.range 5).map
          (fun i => arrayIsNull ((runPrim
            ([.push 0, .push 2, .pushNull, .pushNull, .push 4] : List PrimOp)
            (PrimitiveArrayBuilderM.new 4 5)).finish .int32) i)
        = [false, false, true, true, false] ∧
      primValue 4 ((runPrim ([.push 0, .push 2, .pushNull, .pushNull, .push 4] : List PrimOp)
        (PrimitiveArrayBuilderM.new 4 5)).finish .int32) 0 = 0 ∧
      primValue 4 ((runPrim ([.push 0, .push 2, .pushNull, .pushNull, .push 4] : List PrimOp)
        (PrimitiveArrayBuilderM.new 4 5)).finish .int32) 1 = 2 ∧
      primValue 4 ((runPrim ([.push 0, .push 2, .pushNull, .pushNull, .push 4] : List PrimOp)
        (PrimitiveArrayBuilderM.new 4 5)).finish .int32) 4 = 4) := by
  have hinv := PrimInv_run ops (PrimInv_new w cap)
  rw [List.nil_append] at hinv
  obtain ⟨hlen, hnull, hisnull, hval⟩ := prim_finish_spec hinv dt
  refine ⟨⟨hlen, hnull, hisnull, ?_⟩, by decide, by decide, by decide, by decide, by decide,
    by decide⟩
  intro i v hi hgd
  rw [hval i v hi hgd]
  have hmem : some v ∈ expandOps ops := by
    rw [← hgd]
    exact getD_mem hi none
  exact Nat.mod_eq_of_lt (hbound v hmem)

/-- Claim C4 witness: the value at slot 4 of the concrete i32 example. -/
theorem C4_primitive_builder_witness :
    primValue 4 ((runPrim ([.push 0, .push 2, .pushNull, .pushNull, .push 4] : List PrimOp)
        (PrimitiveArrayBuilderM.new 4 5)).finish .int32) 4 = 4 :=
  ((C4_primitive_builder 4 5 .int32 ([.push 0, .push 2, .pushNull, .pushNull, .push 4])
      (by
        intro v hv
        simp [expandOps, expandOp] at hv
        rcases hv with rfl | rfl | rfl <;> norm_num)).1.2.2.2)
    4 4 (by decide) (by decide)

/-! ## Claim C5 — ListArrayBuilder offsets -/

theorem mem_of_getLast? {l : List Nat} {x : Nat} (h : l.getLast? = some x) : x ∈ l := by
  induction l with
  | nil => simp at h
  | cons a t ih =>
    cases t with
    | nil =>
      simp at h
      subst h
      simp
    | cons b u =>
      rw [List.getLast?_cons_cons] at h
      exact List.mem_cons_of_mem _ (ih h)

theorem ListInv_new {C : Type} (ops : ArrayBuilderOps C) (child : C) :
    ListInv ops [] (ListArrayBuilderM.new ops child) := by
  unfold ListArrayBuilderM.new ListInv
  dsimp only
  refine ⟨?_, rfl, ?_, ?_⟩
  · have h := WInv_push 0 (WInv_new 4 (ops.len child + 1))
    simpa using h
  · simp
  · intro r hr
    simp at hr
    subst hr
    exact Nat.zero_le _

theorem ListInv_child {C : Type} {ops : ArrayBuilderOps C} {recorded : List Nat}
    {st : ListArrayBuilderM C} (h : ListInv ops recorded st) (f : C → C)
    (hf : ∀ c, ops.len c ≤ ops.len (f c)) :
    ListInv ops recorded { st with values_builder := f st.values_builder } := by
  obtain ⟨h1, h2, h3, h4⟩ := h
  exact ⟨h1, h2, h3, fun r hr => le_trans (h4 r hr) (hf _)⟩

theorem ListInv_append {C : Type} {ops : ArrayBuilderOps C} {recorded : List Nat}
    {st : ListArrayBuilderM C} (h : ListInv ops recorded st) (valid : Bool) :
    ListInv ops (recorded ++ [ops.len st.values_builder]) (st.append ops valid) := by
  obtain ⟨h1, h2, h3, h4⟩ := h
  unfold ListArrayBuilderM.append ListInv
  dsimp only
  refine ⟨?_, by simp [h2], ?_, ?_⟩
  · have hp := WInv_push (ops.len st.values_builder) h1
    have heq : ((0 :: recorded).map some) ++ [some (ops.len st.values_builder)]
        = ((0 :: (recorded ++ [ops.len st.values_builder])).map some) := by
      simp
    rw [heq] at hp
    exact hp
  · rw [← List.cons_append, List.chain'_append]
    refine ⟨h3, List.chain'_singleton _, ?_⟩
    intro x hx y hy
    simp at hy
    subst hy
    rw [Option.mem_def] at hx
    exact h4 x (mem_of_getLast? hx)
  · intro r hr
    rw [← List.cons_append, List.mem_append] at hr
    rcases hr with hr | hr
    · exact h4 r hr
    · simp at hr
      subst hr
      exact le_refl _

theorem ListInv_child_run {C : Type} {ops : ArrayBuilderOps C} {recorded : List Nat}
    {st : ListArrayBuilderM C} (h : ListInv ops recorded st) (fs : List (C → C))
    (hfs : ∀ f ∈ fs, ∀ c, ops.len c ≤ ops.len (f c)) :
    ListInv ops recorded (runListCmds ops (fs.map ListCmd.child) st) := by
  induction fs generalizing st with
  | nil => exact h
  | cons f t ih =>
    have h1 := ListInv_child h f (hfs f (by simp))
    have h2 := ih h1 (fun g hg => hfs g (by simp [hg]))
    exact h2

theorem runListCmds_append {C : Type} (ops : ArrayBuilderOps C) (c1 c2 : List (ListCmd C))
    (st : ListArrayBuilderM C) :
    runListCmds ops (c1 ++ c2) st = runListCmds ops c2 (runListCmds ops c1 st) := by
  unfold runListCmds
  rw [List.foldl_append]

theorem ListInv_rounds {C : Type} {ops : ArrayBuilderOps C}
    (rounds : List (List (C → C) × Bool)) {recorded : List Nat} {st : ListArrayBuilderM C}
    (h : ListInv ops recorded st)
    (hlast : (0 :: recorded).getLast? = some (ops.len st.values_builder))
    (hmono : ∀ r ∈ rounds, ∀ f ∈ r.1, ∀ c, ops.len c ≤ ops.len (f c)) :
    ∃ recorded', recorded'.length = rounds.length ∧
      ListInv ops (recorded ++ recorded') (runListCmds ops (renderRounds rounds) st) ∧
      (0 :: (recorded ++ recorded')).getLast?
        = some (ops.len (runListCmds ops (renderRounds rounds) st).values_builder) := by
  induction rounds generalizing recorded st with
  | nil =>
    refine ⟨[], rfl, ?_, ?_⟩
    · simpa [renderRounds, runListCmds] using h
    · simpa [renderRounds, runListCmds] using hlast
  | cons rd rest ih =>
    obtain ⟨fs, valid⟩ := rd
    have hrender : renderRounds ((fs, valid) :: rest)
        = (fs.map ListCmd.child ++ [ListCmd.append valid]) ++ renderRounds rest := by
      simp [renderRounds]
    have hmono1 : ∀ f ∈ fs, ∀ c, ops.len c ≤ ops.len (f c) :=
      fun f hf => hmono (fs, valid) (by simp) f hf
    have h1 := ListInv_child_run h fs hmono1
    have h2 := ListInv_append h1 valid
    have hrun1 : runListCmds ops (fs.map ListCmd.child ++ [ListCmd.append valid]) st
        = (runListCmds ops (fs.map ListCmd.child) st).append ops valid := by
      rw [runListCmds_append]
      rfl
    have hlast2 : (0 :: (recorded
          ++ [ops.len (runListCmds ops (fs.map ListCmd.child) st).values_builder])).getLast?
        = some (ops.len
            ((runListCmds ops (fs.map ListCmd.child) st).append ops valid).values_builder) := by
      rw [← List.cons_append, List.getLast?_concat]
      rfl
    obtain ⟨rec', hlen', hinv', hlast'⟩ := ih h2 hlast2 (fun r hr => hmono r (by simp [hr]))
    refine ⟨[ops.len (runListCmds ops (fs.map ListCmd.child) st).values_builder] ++ rec',
      by simp [hlen'], ?_, ?_⟩
    · rw [hrender, runListCmds_append, hrun1, ← List.append_assoc]
      exact hinv'
    · rw [hrender, runListCmds_append, hrun1, ← List.append_assoc]
      exact hlast'

theorem chain_le_getD {l : List Nat} (h : List.Chain' (· ≤ ·) l) {i : Nat}
    (hi : i + 1 < l.length) : l.getD i 0 ≤ l.getD (i + 1) 0 := by
  rw [List.getD_eq_getElem _ _ (by omega), List.getD_eq_getElem _ _ hi]
  have hc := List.chain'_iff_get.mp h i (by omega)
  simpa using hc

theorem list_finish_offsets {C : Type} {ops : ArrayBuilderOps C} {recorded : List Nat}
    {st : ListArrayBuilderM C} (h : ListInv ops recorded st)
    (hfit : ∀ r ∈ (0 :: recorded), r < 2 ^ 31) :
    Buffer.len ((st.finish ops).buffers.getD 0 emptyBufferM) = 4 * (recorded.length + 1) ∧
    (st.finish ops).len = recorded.length ∧
    ((st.finish ops).child_data.getD 0 emptyArrayDataM).len = ops.len st.values_builder ∧
    (∀ i, i ≤ recorded.length →
      offsetAt ((st.finish ops).buffers.getD 0 emptyBufferM) i = (0 :: recorded).getD i 0) := by
  obtain ⟨⟨hwlen, hwbuflen, hwdlen, hwcap, hwslots⟩, hstlen, hchain, hbound⟩ := h
  have hslotslen : ((0 :: recorded).map some).length = recorded.length + 1 := by simp
  have hbl : st.offsets_builder.buffer.len = 4 * (recorded.length + 1) := by
    rw [hwbuflen, hslotslen]
  unfold ListArrayBuilderM.finish ArrayDataM.buffers ArrayDataM.len ArrayDataM.child_data
  dsimp only
  simp only [List.getD_cons_zero]
  refine ⟨?_, hstlen, ?_, ?_⟩
  · unfold BufferBuilderW.finish MutableBuffer.freeze Buffer.len
    dsimp only
    rw [hbl]
    simp [List.length_take]
    omega
  · exact ops.finish_len st.values_builder
  · intro i hi
    unfold BufferBuilderW.finish MutableBuffer.freeze offsetAt Buffer.dataBytes
    dsimp only
    rw [List.drop_zero, hbl]
    rw [seg_of_take _ (mul_succ_le (by omega : i < recorded.length + 1))]
    have hgd : ((0 :: recorded).map some).getD i none = some ((0 :: recorded).getD i 0) :=
      getD_map_some (by simp; omega)
    rw [hwslots i _ hgd (by rw [hslotslen]; omega)]
    rw [decodeLE_encodeLE]
    have hlt : (0 :: recorded).getD i 0 < 2 ^ 31 :=
      hfit _ (getD_mem (by simp; omega) 0)
    have : (0 : Nat) < 2 ^ 31 := by norm_num
    exact Nat.mod_eq_of_lt (by norm_num at hlt ⊢; omega)

/-- Claim C5 counterexample: with one child push and no `append` at all
(N = 0), the finished ListArray has offsets buffer `[0]` — so
`offsets[N] = 0` — while the child array's length is 1: the claim's
"offsets[N] equal to the child array's length" fails for sequences whose
trailing child pushes are not closed by an `append`. -/
theorem C5_offsets_counterexample :
    (runListCmds (primOps 4 DataType.int32) [ListCmd.child (fun c => c.push 7)]
        (ListArrayBuilderM.new (primOps 4 DataType.int32)
          (PrimitiveArrayBuilderM.new 4 0))).len = 0 ∧
    offsetAt (((runListCmds (primOps 4 DataType.int32) [ListCmd.child (fun c => c.push 7)]
        (ListArrayBuilderM.new (primOps 4 DataType.int32)
          (PrimitiveArrayBuilderM.new 4 0))).finish
        (primOps 4 DataType.int32)).buffers.getD 0 emptyBufferM) 0 = 0 ∧
    (((runListCmds (primOps 4 DataType.int32) [ListCmd.child (fun c => c.push 7)]
        (ListArrayBuilderM.new (primOps 4 DataType.int32)
          (PrimitiveArrayBuilderM.new 4 0))).finish
        (primOps 4 DataType.int32)).child_data.getD 0 emptyArrayDataM).len = 1 := by
  refine ⟨by decide, by decide, by decide⟩

/-- Claim C5 (amended): for every `ListArrayBuilder` (over any child builder
type, so at every nesting depth) driven by the documented protocol — a fresh
child builder, and child pushes closed by an `append(is_valid)` per slot
(`renderRounds`), child steps never shrinking the child and the final child
length fitting in an i32 — the finished array's offsets buffer holds exactly
`N+1` 32-bit slots with `offsets[0] = 0`, monotonically non-decreasing, and
`offsets[N]` equal to the child array's length.  (Without the closing
`append`, `offsets[N]` can undershoot the child length — see the
counterexample.) -/
theorem C5_list_offsets {C : Type} (ops : ArrayBuilderOps C) (child0 : C)
    (rounds : List (List (C → C) × Bool))
    (hchild0 : ops.len child0 = 0)
    (hmono : ∀ r ∈ rounds, ∀ f ∈ r.1, ∀ c, ops.len c ≤ ops.len (f c))
    (hfit : ops.len (runListCmds ops (renderRounds rounds)
        (ListArrayBuilderM.new ops child0)).values_builder < 2 ^ 31) :
    ((runListCmds ops (renderRounds rounds) (ListArrayBuilderM.new ops child0)).finish ops).len
        = rounds.length ∧
    Buffer.len ((((runListCmds ops (renderRounds rounds)
          (ListArrayBuilderM.new ops child0)).finish ops).buffers).getD 0 emptyBufferM)
        = 4 * (rounds.length + 1) ∧
    offsetAt ((((runListCmds ops (renderRounds rounds)
          (ListArrayBuilderM.new ops child0)).finish ops).buffers).getD 0 emptyBufferM) 0
        = 0 ∧
    (∀ i, i < rounds.length →
      offsetAt ((((runListCmds ops (renderRounds rounds)
            (ListArrayBuilderM.new ops child0)).finish ops).buffers).getD 0 emptyBufferM) i
        ≤ offsetAt ((((runListCmds ops (renderRounds rounds)
            (ListArrayBuilderM.new ops child0)).finish ops).buffers).getD 0 emptyBufferM)
            (i + 1)) ∧
    offsetAt ((((runListCmds ops (renderRounds rounds)
          (ListArrayBuilderM.new ops child0)).finish ops).buffers).getD 0 emptyBufferM)
        rounds.length
      = ((((runListCmds ops (renderRounds rounds)
          (ListArrayBuilderM.new ops child0)).finish ops).child_data).getD 0
          emptyArrayDataM).len := by
  obtain ⟨rec', hlen', hinv, hlast⟩ := ListInv_rounds rounds (ListInv_new ops child0)
    (by simp [ListArrayBuilderM.new, hchild0]) hmono
  rw [List.nil_append] at hinv hlast
  have hfit' : ∀ r ∈ (0 :: rec'), r < 2 ^ 31 := by
    intro r hr
    have hle := hinv.2.2.2 r hr
    omega
  obtain ⟨hblen, hN, hchildlen, hoffs⟩ := list_finish_offsets hinv hfit'
  rw [hlen'] at hblen hN hoffs
  have hchain := hinv.2.2.1
  refine ⟨hN, hblen, ?_, ?_, ?_⟩
  · rw [hoffs 0 (by omega)]
    rfl
  · intro i hi
    rw [hoffs i (by omega), hoffs (i + 1) (by omega)]
    exact chain_le_getD hchain (by simp [hlen']; omega)
  · rw [hoffs rounds.length (le_refl _), hchildlen]
    have hg := getLast?_eq_getD (0 :: rec') 0 (by simp)
    rw [hg] at hlast
    have hidx : (0 :: rec').length - 1 = rounds.length := by
      simp [hlen']
    rw [hidx] at hlast
    exact Option.some.inj hlast

/-- Claim C5 witness: the amended theorem at a nested (list-of-lists)
builder — the child of the outer list builder is itself a list builder over
an i32 primitive builder — with one round that appends one inner list slot. -/
theorem C5_list_offsets_witness :
    ((runListCmds (listOps (primOps 4 DataType.int32))
        (renderRounds [([fun c => ListArrayBuilderM.append (primOps 4 DataType.int32) c true],
          true)])
        (ListArrayBuilderM.new (listOps (primOps 4 DataType.int32))
          (ListArrayBuilderM.new (primOps 4 DataType.int32)
            (PrimitiveArrayBuilderM.new 4 0)))).finish
        (listOps (primOps 4 DataType.int32))).len
      = ([([fun c => ListArrayBuilderM.append (primOps 4 DataType.int32) c true], true)] :
          List (List (ListArrayBuilderM (PrimitiveArrayBuilderM 4)
            → ListArrayBuilderM (PrimitiveArrayBuilderM 4)) × Bool)).length :=
  (C5_list_offsets (listOps (primOps 4 DataType.int32))
    (ListArrayBuilderM.new (primOps 4 DataType.int32) (PrimitiveArrayBuilderM.new 4 0))
    [([fun c => ListArrayBuilderM.append (primOps 4 DataType.int32) c true], true)]
    (by decide)
    (by
      intro r hr f hf c
      simp at hr
      subst hr
      dsimp only at hf
      simp at hf
      subst hf
      show c.len ≤ c.len + 1
      omega)
    (by decide)).1
